import Mathlib

/-!
Verification development for the turn-based multiplayer game server core
(souze/coding-challenge).  The Rust sources are embedded shallowly:

* machine integers that never overflow in the modelled paths are `Nat`/`Int`;
* `Vec<T>` is `List T`, `HashMap<K,V>` is an association list with the same
  lookup/update semantics;
* a Rust function that can `panic!`/`unwrap` on `None` is embedded as an
  `Option`-returning function where `none` models the panic;
* serde (de)serialization of opaque wire payloads is modelled by carrying the
  parse outcome inside the payload value (the controller never inspects it);
* tokio channels are modelled by an explicit environment (`Env`) that decides,
  per send attempt, whether the receiving end is still alive.
-/

set_option maxRecDepth 10000

/-- druid `Color`, as produced by `Color::rgb8`. -/
structure Color where
  r : Nat
  g : Nat
  b : Nat
deriving DecidableEq, Repr

/-- druid `Color::GRAY` (`grey8(0x80)`). -/
def Color.gray : Color := ⟨128, 128, 128⟩

/-- `gametraits::User`: name plus display color. -/
structure User where
  name : String
  color : Color
deriving DecidableEq, Repr

/-- `gametraits::TurnToken`: the capability naming whose turn it is. -/
structure TurnToken where
  user : User
deriving DecidableEq, Repr

/-- `gametraits::PlayerTurn`, parameterized by the snapshot type `S`
(the serialized `PlayerGameState` is modelled by the value it serializes). -/
structure PlayerTurn (S : Type) where
  token : TurnToken
  state : S
deriving DecidableEq, Repr

/-- `gametraits::PlayerMoveResult`. -/
inductive PlayerMoveResult (S : Type) where
  | Ok (t : PlayerTurn S)
  | Win
  | Draw
  | InvalidMove (t : Option (PlayerTurn S))
  | InvalidFormat (t : Option (PlayerTurn S))
deriving DecidableEq, Repr

/-! ## TurnTracker (src/turn_tracker.rs) -/

/-- `TurnTracker`: rotation of players plus current index. -/
structure TurnTracker where
  players : List User
  current_player_index : Nat
deriving DecidableEq, Repr

namespace TurnTracker

/-- `TurnTracker::new`. -/
def new (players : List User) : TurnTracker :=
  ⟨players, 0⟩

/-- `TurnTracker::remove_player`.  The source unwraps a `find_position`
lookup, so a name absent from the rotation panics: modelled by `none`.
When found at index `i`, the current index is adjusted exactly as in the
source (the `is_empty` test there is dead, since the find succeeded), and
every entry with the given name is filtered out. -/
def removePlayer (t : TurnTracker) (username : String) : Option TurnTracker :=
  match t.players.findIdx? (fun u => u.name = username) with
  | none => none
  | some i =>
    let newIdx :=
      if i ≤ t.current_player_index then
        if t.players = [] then 0
        else if i = 0 then t.players.length - 1
        else t.current_player_index - 1
      else t.current_player_index
    some ⟨t.players.filter (fun u => u.name ≠ username), newIdx⟩

/-- `TurnTracker::add_player`. -/
def addPlayer (t : TurnTracker) (user : User) : TurnTracker :=
  ⟨t.players ++ [user], t.current_player_index⟩

/-- `TurnTracker::advance_player`: `None` on an empty rotation, else step
the index modulo the rotation length and return that player. -/
def advancePlayer (t : TurnTracker) : Option User × TurnTracker :=
  if _h : t.players = [] then (none, t)
  else
    let idx := (t.current_player_index + 1) % t.players.length
    (t.players.get? idx, ⟨t.players, idx⟩)

/-- `TurnTracker::num_players`. -/
def numPlayers (t : TurnTracker) : Nat := t.players.length

/-- Names currently in the rotation. -/
def names (t : TurnTracker) : List String := t.players.map (fun u => u.name)

theorem advancePlayer_some (t : TurnTracker) (h : t.players ≠ []) :
    ∃ u, (t.advancePlayer).1 = some u ∧ u ∈ t.players := by
  unfold advancePlayer
  simp only [h, dite_false]
  have hlen : 0 < t.players.length := List.length_pos.mpr h
  have hlt : (t.current_player_index + 1) % t.players.length < t.players.length :=
    Nat.mod_lt _ hlen
  refine ⟨t.players.get ⟨_, hlt⟩, ?_, List.get_mem _ _ _⟩
  simp [List.get?_eq_get, hlt]

theorem removePlayer_none_iff (t : TurnTracker) (username : String) :
    t.removePlayer username = none ↔ username ∉ t.names := by
  unfold removePlayer names
  constructor
  · intro h hmem
    obtain ⟨u, hu, hname⟩ := List.mem_map.mp hmem
    rcases hfind : t.players.findIdx? (fun v => v.name = username) with _ | i
    · have hall := List.findIdx?_eq_none_iff.mp hfind u hu
      simp at hall
      exact hall hname
    · rw [hfind] at h
      simp at h
  · intro habs
    have : t.players.findIdx? (fun v => v.name = username) = none := by
      rw [List.findIdx?_eq_none_iff]
      intro u hu
      by_contra hc
      exact habs (List.mem_map.mpr ⟨u, hu, by simpa using hc⟩)
    rw [this]

end TurnTracker

/-! ## The counter ("dumb") engine (src/games/dumb.rs) -/

namespace Dumb

/-- `dumb::PlayerState`: the running counter (u32; additions in the modelled
scenarios stay far below 2^32, so overflow wrapping is elided). -/
structure PlayerState where
  num : Nat
deriving DecidableEq, Repr

/-- `dumb::Game`. -/
structure Game where
  count : PlayerState
  players : TurnTracker
deriving DecidableEq, Repr

/-- `dumb::Game::try_start_game`.  The source unconditionally unwraps
`advance_player`, so an empty rotation panics (`none`); otherwise the
advanced player is handed the turn. -/
def tryStartGame (g : Game) : Option (PlayerTurn PlayerState × Game) :=
  match (g.players.advancePlayer) with
  | (none, _) => none
  | (some u, tt) => some (⟨⟨u⟩, g.count⟩, { g with players := tt })

end Dumb

/-- C10: the counter engine's `try_start_game` unconditionally unwraps the
next rotation player: it panics (modelled `none`) exactly on an empty
rotation, and on a non-empty rotation returns a turn naming the next
rotation player (`players[(current_index + 1) % len]`). -/
theorem dumb_try_start_game_unwraps (g : Dumb.Game) :
    (g.players.players = [] → Dumb.tryStartGame g = none) ∧
    (g.players.players ≠ [] →
      ∃ pt g2 h2, Dumb.tryStartGame g = some (pt, g2) ∧
        pt.token.user = g.players.players.get
          ⟨(g.players.current_player_index + 1) % g.players.players.length, h2⟩ ∧
        pt.token.user ∈ g.players.players) := by
  constructor
  · intro h
    unfold Dumb.tryStartGame TurnTracker.advancePlayer
    simp [h]
  · intro h
    have hlen : 0 < g.players.players.length := List.length_pos.mpr h
    have hlt : (g.players.current_player_index + 1) % g.players.players.length <
        g.players.players.length := Nat.mod_lt _ hlen
    refine ⟨⟨⟨g.players.players.get ⟨_, hlt⟩⟩, g.count⟩, ?_, hlt, ?_, rfl, List.get_mem _ _ _⟩
    · exact { g with players := ⟨g.players.players,
        (g.players.current_player_index + 1) % g.players.players.length⟩ }
    · unfold Dumb.tryStartGame TurnTracker.advancePlayer
      simp [h, List.get?_eq_get, hlt]

/-- Witness for C10 at a concrete two-player game. -/
theorem dumb_try_start_game_unwraps_witness :
    ∃ pt g2 h2,
      Dumb.tryStartGame ⟨⟨0⟩, ⟨[⟨"alice", ⟨0,0,0⟩⟩, ⟨"bob", ⟨1,1,1⟩⟩], 0⟩⟩ = some (pt, g2) ∧
        pt.token.user = ([⟨"alice", ⟨0,0,0⟩⟩, ⟨"bob", ⟨1,1,1⟩⟩] : List User).get ⟨(0 + 1) % 2, h2⟩ ∧
        pt.token.user ∈ ([⟨"alice", ⟨0,0,0⟩⟩, ⟨"bob", ⟨1,1,1⟩⟩] : List User) :=
  (dumb_try_start_game_unwraps ⟨⟨0⟩, ⟨[⟨"alice", ⟨0,0,0⟩⟩, ⟨"bob", ⟨1,1,1⟩⟩], 0⟩⟩).2 (by decide)

/-! ## Player registry (src/player_table.rs) -/

/-- `PaintBucket`: remaining palette plus the per-name assignment map
(`HashMap<String, Color>` modelled as an association list with unique keys). -/
structure PaintBucket where
  free_paints : List Color
  taken_paints : List (String × Color)
deriving DecidableEq, Repr

/-- The fixed 21-color palette, in source order (`Vec::pop` takes the last). -/
def palette : List Color :=
  [⟨0, 0, 0⟩, ⟨128, 128, 128⟩, ⟨0, 0, 128⟩, ⟨255, 215, 180⟩, ⟨128, 128, 0⟩,
   ⟨170, 255, 195⟩, ⟨128, 0, 0⟩, ⟨255, 250, 200⟩, ⟨170, 110, 40⟩, ⟨220, 190, 255⟩,
   ⟨0, 128, 128⟩, ⟨250, 190, 212⟩, ⟨210, 245, 60⟩, ⟨240, 50, 230⟩, ⟨70, 240, 240⟩,
   ⟨145, 30, 180⟩, ⟨245, 130, 48⟩, ⟨0, 130, 200⟩, ⟨255, 225, 25⟩, ⟨60, 180, 75⟩,
   ⟨230, 25, 75⟩]

/-- `PaintBucket::new`. -/
def PaintBucket.new : PaintBucket := ⟨palette, []⟩

/-- `HashMap::get` on the association list (first matching key). -/
def lookupColor : List (String × Color) → String → Option Color
  | [], _ => none
  | (k, c) :: rest, n => if k = n then some c else lookupColor rest n

/-- `PaintBucket::get`: return the held color for a known name; otherwise pop
the last free palette color (gray once exhausted) and record it for the name. -/
def PaintBucket.get (pb : PaintBucket) (name : String) : Color × PaintBucket :=
  match lookupColor pb.taken_paints name with
  | some c => (c, pb)
  | none =>
    match pb.free_paints.getLast? with
    | some c => (c, ⟨pb.free_paints.dropLast, pb.taken_paints ++ [(name, c)]⟩)
    | none => (Color.gray, ⟨pb.free_paints, pb.taken_paints ++ [(name, Color.gray)]⟩)

/-- `PlayerInfo`: registry entry.  The `tx` channel is modelled by the
environment (`Env`) rather than stored in the entry. -/
structure PlayerInfo where
  name : String
  color : Color
deriving DecidableEq, Repr

/-- `PlayerTable`. -/
structure PlayerTable where
  players : List PlayerInfo
  current_index : Nat
  paint_bucket : PaintBucket
deriving DecidableEq, Repr

/-- `PlayerTable::new`. -/
def PlayerTable.new : PlayerTable := ⟨[], 0, PaintBucket.new⟩

/-- The loop body of `PlayerTable::remove_player`: walks the entries left to
right, dropping the named ones and decrementing the current index for each
matching entry whose enumeration index is below the (already decremented)
current index, exactly as the source mutates `self.current_index` mid-loop. -/
def removeFold (name : String) : List PlayerInfo → Nat → Nat → List PlayerInfo × Nat
  | [], _, cur => ([], cur)
  | p :: rest, i, cur =>
    if p.name = name then
      removeFold name rest (i + 1) (if i < cur then cur - 1 else cur)
    else
      let r := removeFold name rest (i + 1) cur
      (p :: r.1, r.2)

/-- `PlayerTable::remove_player`.  The `Bool` result (was the name present)
is Modelled from the spec: `remove(name) -> bool` (§4.2); the copy of the
function under src/ returns no flag, but the controller branches on one. -/
def PlayerTable.removePlayer (t : PlayerTable) (name : String) : PlayerTable × Bool :=
  let r := removeFold name t.players 0 t.current_index
  (⟨r.1, r.2, t.paint_bucket⟩, t.players.any (fun p => p.name = name))

/-- `PlayerTable::add_new_player`: drop any stale entry for the name, then
push a fresh entry colored by the paint bucket.  The controller binds the
freshly pushed entry, so the embedding also returns it. -/
def PlayerTable.addNewPlayer (t : PlayerTable) (name : String) : PlayerTable × PlayerInfo :=
  let t1 := (t.removePlayer name).1
  let cpb := t1.paint_bucket.get name
  let info : PlayerInfo := ⟨name, cpb.1⟩
  (⟨t1.players ++ [info], t1.current_index, cpb.2⟩, info)

/-- Modelled from the spec: `lookup(name) -> Option<entry>` (§4.2).  The
controller calls `players.get(&name)`, which is absent from the copy of
`player_table.rs` under src/; lookup by name is the evident semantics. -/
def PlayerTable.get (t : PlayerTable) (name : String) : Option PlayerInfo :=
  t.players.find? (fun p => p.name = name)

/-- The registry roster as `User`s (`players.iter().map(player_info_to_user)`). -/
def PlayerTable.users (t : PlayerTable) : List User :=
  t.players.map (fun p => ⟨p.name, p.color⟩)

/-! ### Paint bucket lemmas -/

theorem lookupColor_none_iff (l : List (String × Color)) (n : String) :
    lookupColor l n = none ↔ n ∉ l.map Prod.fst := by
  induction l with
  | nil => simp [lookupColor]
  | cons kv rest ih =>
    obtain ⟨k, c⟩ := kv
    by_cases hk : k = n
    · subst hk; simp [lookupColor]
    · simp [lookupColor, hk, ih, Ne.symm hk]

theorem lookupColor_some_mem {l : List (String × Color)} {n : String} {c : Color}
    (h : lookupColor l n = some c) : (n, c) ∈ l := by
  induction l with
  | nil => simp [lookupColor] at h
  | cons kv rest ih =>
    obtain ⟨k, c0⟩ := kv
    by_cases hk : k = n
    · subst hk
      simp [lookupColor] at h
      simp [h]
    · simp [lookupColor, hk] at h
      exact List.mem_cons_of_mem _ (ih h)

theorem lookupColor_some_value_mem {l : List (String × Color)} {n : String} {c : Color}
    (h : lookupColor l n = some c) : c ∈ l.map Prod.snd := by
  exact List.mem_map.mpr ⟨(n, c), lookupColor_some_mem h, rfl⟩

theorem lookupColor_append_of_none {l l2 : List (String × Color)} {n : String}
    (h : lookupColor l n = none) : lookupColor (l ++ l2) n = lookupColor l2 n := by
  induction l with
  | nil => simp
  | cons kv rest ih =>
    obtain ⟨k, c0⟩ := kv
    by_cases hk : k = n
    · simp [lookupColor, hk] at h
    · simp [lookupColor, hk] at h ⊢
      exact ih h

/-- Distinct names map to distinct colors whenever the stored colors are
pairwise distinct. -/
theorem lookupColor_inj {l : List (String × Color)} (hvals : (l.map Prod.snd).Nodup)
    {n1 n2 : String} {c1 c2 : Color} (hne : n1 ≠ n2)
    (h1 : lookupColor l n1 = some c1) (h2 : lookupColor l n2 = some c2) : c1 ≠ c2 := by
  induction l with
  | nil => simp [lookupColor] at h1
  | cons kv rest ih =>
    obtain ⟨k, c0⟩ := kv
    simp only [List.map_cons, List.nodup_cons] at hvals
    by_cases hk1 : k = n1
    · subst hk1
      rw [lookupColor, if_pos rfl] at h1
      rw [lookupColor, if_neg hne] at h2
      injection h1 with h1
      subst h1
      intro hcc
      exact hvals.1 (hcc ▸ lookupColor_some_value_mem h2)
    · by_cases hk2 : k = n2
      · subst hk2
        rw [lookupColor, if_neg hk1] at h1
        rw [lookupColor, if_pos rfl] at h2
        injection h2 with h2
        subst h2
        intro hcc
        exact hvals.1 (hcc ▸ lookupColor_some_value_mem h1)
      · rw [lookupColor, if_neg hk1] at h1
        rw [lookupColor, if_neg hk2] at h2
        exact ih hvals.2 h1 h2

/-- Bucket invariant: assignment keys are unique, and while free colors
remain, the free colors together with all assigned colors are pairwise
distinct. -/
def BInv (pb : PaintBucket) : Prop :=
  (pb.taken_paints.map Prod.fst).Nodup ∧
  (pb.free_paints ≠ [] → (pb.free_paints ++ pb.taken_paints.map Prod.snd).Nodup)

theorem BInv_new : BInv PaintBucket.new := by
  constructor
  · simp [PaintBucket.new]
  · intro _
    simp [PaintBucket.new, palette]

theorem nodup_keys_snoc {l : List (String × Color)} {n : String} {c : Color}
    (hkeys : (l.map Prod.fst).Nodup) (hl : lookupColor l n = none) :
    ((l ++ [(n, c)]).map Prod.fst).Nodup := by
  simp only [List.map_append, List.map_cons, List.map_nil]
  refine List.Nodup.append hkeys (by simp) ?_
  intro a ha hb
  simp at hb
  subst hb
  exact (lookupColor_none_iff _ _).mp hl ha

theorem BInv_get {pb : PaintBucket} (h : BInv pb) (n : String) : BInv (pb.get n).2 := by
  obtain ⟨hkeys, hfree⟩ := h
  rcases hl : lookupColor pb.taken_paints n with _ | c
  · rcases hlast : pb.free_paints.getLast? with _ | c
    · have hnil : pb.free_paints = [] := by
        simpa using hlast
      simp only [PaintBucket.get, hl, hlast]
      exact ⟨nodup_keys_snoc hkeys hl, fun hne => absurd hnil hne⟩
    · have hsplit : pb.free_paints.dropLast ++ [c] = pb.free_paints :=
        List.dropLast_append_getLast? c hlast
      have hne : pb.free_paints ≠ [] := by
        intro hc
        rw [hc] at hlast
        simp at hlast
      have hnd := hfree hne
      simp only [PaintBucket.get, hl, hlast]
      refine ⟨nodup_keys_snoc hkeys hl, ?_⟩
      intro _
      have hperm : List.Perm
          ((pb.free_paints.dropLast ++ [c]) ++ pb.taken_paints.map Prod.snd)
          (pb.free_paints.dropLast ++ ((pb.taken_paints.map Prod.snd) ++ [c])) := by
        rw [List.append_assoc]
        exact List.Perm.append_left _ List.perm_append_comm
      have hres : (pb.free_paints.dropLast ++ ((pb.taken_paints.map Prod.snd) ++ [c])).Nodup :=
        (hperm.nodup_iff).mp (by rw [hsplit]; exact hnd)
      simpa [List.append_assoc] using hres
  · simp only [PaintBucket.get, hl]
    exact ⟨hkeys, hfree⟩

/-- The bucket reached after serving a sequence of name requests. -/
def runNames (ns : List String) : PaintBucket :=
  ns.foldl (fun pb n => (pb.get n).2) PaintBucket.new

theorem BInv_foldl (ns : List String) :
    ∀ pb, BInv pb → BInv (ns.foldl (fun pb n => (pb.get n).2) pb) := by
  induction ns with
  | nil => intro pb h; exact h
  | cons n rest ih =>
    intro pb h
    exact ih _ (BInv_get h n)

theorem BInv_runNames (ns : List String) : BInv (runNames ns) :=
  BInv_foldl ns PaintBucket.new BInv_new

/-- C8: color assignment pops from the fixed finite palette per first-seen
name.  After any sequence of requests: a known name is handed back exactly
the color recorded for it (bucket untouched); while free palette colors
remain, distinct names hold distinct colors; a new name pops the last free
color, and receives the shared gray fallback once the palette is exhausted.
At table level, removing a player never touches the bucket, re-adding a name
whose color is still recorded re-receives that color, and adding always
records the pushed entry's color — so an assignment persists across
disconnect/reconnect for the process lifetime. -/
theorem color_assignment_palette (ns : List String) :
    (∀ n c, lookupColor (runNames ns).taken_paints n = some c →
       (runNames ns).get n = (c, runNames ns)) ∧
    ((runNames ns).free_paints ≠ [] → ∀ n1 n2 c1 c2, n1 ≠ n2 →
       lookupColor (runNames ns).taken_paints n1 = some c1 →
       lookupColor (runNames ns).taken_paints n2 = some c2 → c1 ≠ c2) ∧
    (∀ n, lookupColor (runNames ns).taken_paints n = none →
       ((runNames ns).free_paints = [] → ((runNames ns).get n).1 = Color.gray) ∧
       (∀ l c, (runNames ns).free_paints = l ++ [c] → ((runNames ns).get n).1 = c)) ∧
    (∀ t : PlayerTable, ∀ n, ((t.removePlayer n).1).paint_bucket = t.paint_bucket) ∧
    (∀ t : PlayerTable, ∀ n c, lookupColor t.paint_bucket.taken_paints n = some c →
       (t.addNewPlayer n).2 = ⟨n, c⟩) ∧
    (∀ t : PlayerTable, ∀ n,
       lookupColor ((t.addNewPlayer n).1.paint_bucket.taken_paints) n =
         some ((t.addNewPlayer n).2.color)) := by
  refine ⟨?_, ?_, ?_, ?_, ?_, ?_⟩
  · intro n c hl
    simp [PaintBucket.get, hl]
  · intro hne n1 n2 c1 c2 hdiff h1 h2
    have hinv := BInv_runNames ns
    have hvals := (hinv.2 hne).of_append_right
    exact lookupColor_inj hvals hdiff h1 h2
  · intro n hl
    constructor
    · intro hnil
      have hlast : (runNames ns).free_paints.getLast? = none := by
        rw [hnil]; rfl
      simp [PaintBucket.get, hl, hlast]
    · intro l c hsplit
      have hlast : (runNames ns).free_paints.getLast? = some c := by
        rw [hsplit]
        exact List.getLast?_concat _
      simp [PaintBucket.get, hl, hlast]
  · intro t n
    rfl
  · intro t n c hl
    have hb : ((t.removePlayer n).1).paint_bucket = t.paint_bucket := rfl
    simp [PlayerTable.addNewPlayer, hb, PaintBucket.get, hl]
  · intro t n
    have hb : ((t.removePlayer n).1).paint_bucket = t.paint_bucket := rfl
    rcases hl : lookupColor t.paint_bucket.taken_paints n with _ | c
    · rcases hlast : t.paint_bucket.free_paints.getLast? with _ | c
      · simp [PlayerTable.addNewPlayer, hb, PaintBucket.get, hl, hlast,
          lookupColor_append_of_none hl, lookupColor]
      · simp [PlayerTable.addNewPlayer, hb, PaintBucket.get, hl, hlast,
          lookupColor_append_of_none hl, lookupColor]
    · simp [PlayerTable.addNewPlayer, hb, PaintBucket.get, hl]

/-- Witness for C8: after serving names a then b, name a re-requests and is
handed back the first-popped palette color (the palette's last entry). -/
theorem color_assignment_palette_witness :
    lookupColor (runNames ["a", "b"]).taken_paints "a" = some ⟨230, 25, 75⟩ ∧
    (runNames ["a", "b"]).get "a" = (⟨230, 25, 75⟩, runNames ["a", "b"]) :=
  ⟨by decide, (color_assignment_palette ["a", "b"]).1 "a" ⟨230, 25, 75⟩ (by decide)⟩

/-! ## Five-in-a-row reference engine (src/games/gomoku.rs) -/

namespace Gomoku

/-- `gomoku::Cell`. -/
inductive Cell where
  | Empty
  | Occupied (user : User)
deriving DecidableEq, Repr

/-- `gomoku::Board`. -/
structure Board where
  cells : List Cell
  width : Nat
  height : Nat
deriving DecidableEq, Repr

/-- `type FirstAndLast = ((i32, i32), (i32, i32))`. -/
abbrev FirstAndLast := (Int × Int) × (Int × Int)

/-- `Board::at`: `None` outside `[0,width) × [0,height)`, else the cell at
row-major index `y * width + x`.  Boards built by `Game::new` always carry
`width * height` cells, so the inner `get?` is total there. -/
def Board.at (b : Board) (x y : Int) : Option Cell :=
  if x < 0 ∨ y < 0 ∨ (b.width : Int) ≤ x ∨ (b.height : Int) ≤ y then none
  else b.cells.get? (y.toNat * b.width + x.toNat)

/-- `gomoku::PlaceResult`. -/
inductive PlaceResult where
  | Ok
  | Win (coords : FirstAndLast)
  | InvalidMove
deriving DecidableEq, Repr

/-- One item of the win scan: the cell (key grouped on) plus its coordinates. -/
abbrev ScanItem := Option Cell × (Int × Int)

/-- The scanned cells along a list of coordinates. -/
def scanLine (b : Board) (pts : List (Int × Int)) : List ScanItem :=
  pts.map (fun p => (b.at p.1 p.2, p))

/-- itertools `group_by`: maximal runs of adjacent elements with equal key. -/
def chunkBy {α κ : Type} [DecidableEq κ] (k : α → κ) : List α → List (List α)
  | [] => []
  | a :: rest =>
    match chunkBy k rest with
    | [] => [[a]]
    | [] :: gs => [a] :: [] :: gs
    | (b :: bs) :: gs => if k a = k b then (a :: b :: bs) :: gs else [a] :: (b :: bs) :: gs

/-- `Iterator::max_by` on lengths: `None` on empty input, and on ties the
LAST maximal element wins, as documented for `max_by`. -/
def maxByLen {α : Type} : List (List α) → Option (List α)
  | [] => none
  | a :: rest =>
    match maxByLen rest with
    | none => some a
    | some b => some (if b.length < a.length then a else b)

/-- `Board::range_contains_win` on an explicit coordinate list: group the
scanned cells into runs of equal cells, take the longest run, and if it has
length at least 5 report its first and last coordinates. -/
def rangeContainsWin (b : Board) (pts : List (Int × Int)) : Option FirstAndLast :=
  match maxByLen (chunkBy (fun it : ScanItem => it.1) (scanLine b pts)) with
  | none => none
  | some [] => none
  | some (a :: rest) =>
    if 5 ≤ (a :: rest).length then
      some (a.2, ((a :: rest).getLast (List.cons_ne_nil a rest)).2)
    else none

/-- `zip(repeat(x).take(9), y-4..y+5)`. -/
def vertWindow (x y : Int) : List (Int × Int) :=
  (List.range 9).map (fun i => (x, y - 4 + (i : Int)))

/-- `zip(x-4..x+5, y-4..y+5)`. -/
def diagWindow (x y : Int) : List (Int × Int) :=
  (List.range 9).map (fun i => (x - 4 + (i : Int), y - 4 + (i : Int)))

/-- `zip(x-4..x+5, repeat(y))`. -/
def horizWindow (x y : Int) : List (Int × Int) :=
  (List.range 9).map (fun i => (x - 4 + (i : Int), y))

/-- `zip(x-4..x+5, (y-4..y+5).rev())`. -/
def antiWindow (x y : Int) : List (Int × Int) :=
  (List.range 9).map (fun i => (x - 4 + (i : Int), y + 4 - (i : Int)))

/-- The four scanned orientations in the source's `or_else` priority order. -/
def windows (x y : Int) : List (List (Int × Int)) :=
  [vertWindow x y, diagWindow x y, horizWindow x y, antiWindow x y]

/-- `Board::check_for_win_around`: try the four orientations in order. -/
def checkForWinAround (b : Board) (x y : Nat) : PlaceResult :=
  let xi : Int := x
  let yi : Int := y
  match (rangeContainsWin b (vertWindow xi yi)).orElse (fun _ =>
        (rangeContainsWin b (diagWindow xi yi)).orElse (fun _ =>
        (rangeContainsWin b (horizWindow xi yi)).orElse (fun _ =>
         rangeContainsWin b (antiWindow xi yi)))) with
  | some coords => PlaceResult.Win coords
  | none => PlaceResult.Ok

/-- `Board::try_place`: reject out-of-bounds or occupied targets, else write
the mover's stone and scan for a win around it. -/
def Board.tryPlace (b : Board) (u : User) (x y : Nat) : Board × PlaceResult :=
  match b.at x y with
  | none => (b, PlaceResult.InvalidMove)
  | some (Cell.Occupied _) => (b, PlaceResult.InvalidMove)
  | some Cell.Empty =>
    let b2 : Board := { b with cells := b.cells.set (y * b.width + x) (Cell.Occupied u) }
    (b2, checkForWinAround b2 x y)

/-- `Board::is_full`. -/
def Board.isFull (b : Board) : Bool :=
  !(b.cells.any (fun c => match c with | Cell.Empty => true | _ => false))

/-- `gomoku::Game`. -/
structure Game where
  board : Board
  winner : Option (User × FirstAndLast)
  players : TurnTracker
deriving DecidableEq, Repr

/-- `gomoku::Game::new`. -/
def Game.new (w h : Nat) (players : List User) : Game :=
  ⟨⟨List.replicate (w * h) Cell.Empty, w, h⟩, none, TurnTracker.new players⟩

/-- `gomoku::PlayerMove` (both coordinates are `usize`). -/
structure GMove where
  x : Nat
  y : Nat
deriving DecidableEq, Repr

/-- The opaque serialized move payload: serde parsing of the wire string is
modelled by carrying its outcome (`to_player_move` either yields the move or
fails). -/
structure GPayload where
  parsed : Option GMove
deriving DecidableEq, Repr

/-- `gomoku::InternalMoveResult`. -/
inductive InternalMoveResult where
  | InvalidMove
  | Ok
  | Win
  | Draw
deriving DecidableEq, Repr

/-- `gomoku::make_move`: place, then classify (a full board after a
non-winning placement is a draw; a detected win records the winner and the
win line). -/
def makeMove (g : Game) (u : User) (m : GMove) : Game × InternalMoveResult :=
  match g.board.tryPlace u m.x m.y with
  | (_, PlaceResult.InvalidMove) => (g, InternalMoveResult.InvalidMove)
  | (b2, PlaceResult.Ok) =>
    if b2.isFull then ({ g with board := b2 }, InternalMoveResult.Draw)
    else ({ g with board := b2 }, InternalMoveResult.Ok)
  | (b2, PlaceResult.Win coords) =>
    ({ g with board := b2, winner := some (u, coords) }, InternalMoveResult.Win)

/-- `gomoku::Game::player_moves` (the `GameTrait` impl).  Unparseable
payloads eject the mover and return `InvalidFormat` with the next rotation
turn; illegal placements do the same with `InvalidMove`; legal placements
advance the rotation (unwrapped: an empty rotation there panics, `none`).
The snapshot sent with a turn is modelled by the board value. -/
def Game.playerMoves (g : Game) (tok : TurnToken) (pm : GPayload) :
    Option (Game × PlayerMoveResult Board) :=
  match pm.parsed with
  | some mov =>
    match makeMove g tok.user mov with
    | (g1, InternalMoveResult.InvalidMove) =>
      match g1.players.removePlayer tok.user.name with
      | none => none
      | some tt =>
        match tt.advancePlayer with
        | (some p, tt2) =>
          some ({ g1 with players := tt2 }, PlayerMoveResult.InvalidMove (some ⟨⟨p⟩, g1.board⟩))
        | (none, tt2) => some ({ g1 with players := tt2 }, PlayerMoveResult.InvalidMove none)
    | (g1, InternalMoveResult.Ok) =>
      match g1.players.advancePlayer with
      | (some p, tt2) => some ({ g1 with players := tt2 }, PlayerMoveResult.Ok ⟨⟨p⟩, g1.board⟩)
      | (none, _) => none
    | (g1, InternalMoveResult.Win) => some (g1, PlayerMoveResult.Win)
    | (g1, InternalMoveResult.Draw) => some (g1, PlayerMoveResult.Draw)
  | none =>
    match g.players.removePlayer tok.user.name with
    | none => none
    | some tt =>
      match tt.advancePlayer with
      | (some p, tt2) =>
        some ({ g with players := tt2 }, PlayerMoveResult.InvalidFormat (some ⟨⟨p⟩, g.board⟩))
      | (none, tt2) => some ({ g with players := tt2 }, PlayerMoveResult.InvalidFormat none)

/-- `gomoku::Game::player_connected`. -/
def Game.playerConnected (g : Game) (u : User) : Game :=
  { g with players := g.players.addPlayer u }

/-- `gomoku::Game::player_disconnected` (panics, `none`, when the name is
not in the rotation). -/
def Game.playerDisconnected (g : Game) (username : String) : Option Game :=
  (g.players.removePlayer username).map (fun tt => { g with players := tt })

/-- `gomoku::Game::current_player_disconnected` (panics, `none`, when the
token's user is not in the rotation). -/
def Game.currentPlayerDisconnected (g : Game) (tok : TurnToken) :
    Option (Game × Option (PlayerTurn Board)) :=
  match g.players.removePlayer tok.user.name with
  | none => none
  | some tt =>
    match tt.advancePlayer with
    | (none, tt2) => some ({ g with players := tt2 }, none)
    | (some u, tt2) => some ({ g with players := tt2 }, some ⟨⟨u⟩, g.board⟩)

/-- `gomoku::Game::try_start_game`. -/
def Game.tryStart (g : Game) : Game × Option (PlayerTurn Board) :=
  match g.players.advancePlayer with
  | (some u, tt2) => ({ g with players := tt2 }, some ⟨⟨u⟩, g.board⟩)
  | (none, tt2) => ({ g with players := tt2 }, none)

end Gomoku

/-! ### Rotation lemmas -/

theorem removePlayer_some_players {t : TurnTracker} {name : String} {tt : TurnTracker}
    (h : t.removePlayer name = some tt) :
    tt.players = t.players.filter (fun u => u.name ≠ name) := by
  unfold TurnTracker.removePlayer at h
  rcases hfind : t.players.findIdx? (fun u => u.name = name) with _ | i
  · rw [hfind] at h; simp at h
  · rw [hfind] at h
    simp at h
    rw [← h]
    simp [ne_eq]

theorem removePlayer_some_not_mem {t : TurnTracker} {name : String} {tt : TurnTracker}
    (h : t.removePlayer name = some tt) : name ∉ tt.names := by
  rw [TurnTracker.names, removePlayer_some_players h]
  intro hmem
  obtain ⟨u, hu, hname⟩ := List.mem_map.mp hmem
  have := List.of_mem_filter hu
  simp at this
  exact this hname

theorem removePlayer_isSome {t : TurnTracker} {name : String}
    (h : name ∈ t.names) : ∃ tt, t.removePlayer name = some tt := by
  rcases hr : t.removePlayer name with _ | tt
  · exact absurd h ((TurnTracker.removePlayer_none_iff t name).mp hr)
  · exact ⟨tt, rfl⟩

theorem advancePlayer_players (t : TurnTracker) : (t.advancePlayer).2.players = t.players := by
  unfold TurnTracker.advancePlayer
  split <;> rfl

theorem advancePlayer_fst_none_iff (t : TurnTracker) :
    (t.advancePlayer).1 = none ↔ t.players = [] := by
  constructor
  · intro h
    by_contra hne
    obtain ⟨u, hu, _⟩ := TurnTracker.advancePlayer_some t hne
    rw [h] at hu
    exact Option.noConfusion hu
  · intro h
    unfold TurnTracker.advancePlayer
    simp [h]

theorem advancePlayer_fst_mem {t : TurnTracker} {u : User}
    (h : (t.advancePlayer).1 = some u) : u ∈ t.players := by
  by_cases hne : t.players = []
  · unfold TurnTracker.advancePlayer at h
    simp [hne] at h
  · obtain ⟨v, hv, hvm⟩ := TurnTracker.advancePlayer_some t hne
    rw [hv] at h
    injection h with h
    exact h ▸ hvm

/-- C9: `TurnTracker::remove_player` panics exactly when the name is absent
from the rotation, so the five-in-a-row engine's `player_disconnected` and
`current_player_disconnected` (which call it) carry the unstated
precondition that the named user is currently in the rotation. -/
theorem turn_tracker_remove_player_panics :
    (∀ (t : TurnTracker) (name : String),
       t.removePlayer name = none ↔ name ∉ t.names) ∧
    (∀ (g : Gomoku.Game) (name : String),
       g.playerDisconnected name = none ↔ name ∉ g.players.names) ∧
    (∀ (g : Gomoku.Game) (tok : TurnToken),
       g.currentPlayerDisconnected tok = none ↔ tok.user.name ∉ g.players.names) := by
  refine ⟨TurnTracker.removePlayer_none_iff, ?_, ?_⟩
  · intro g name
    unfold Gomoku.Game.playerDisconnected
    rw [← TurnTracker.removePlayer_none_iff]
    rcases g.players.removePlayer name with _ | tt <;> simp
  · intro g tok
    unfold Gomoku.Game.currentPlayerDisconnected
    rw [← TurnTracker.removePlayer_none_iff]
    rcases g.players.removePlayer tok.user.name with _ | tt
    · simp
    · simp only
      rcases tt.advancePlayer with ⟨_ | u, tt2⟩ <;> simp

/-- C7: with a token whose user is in the rotation, an unparseable payload
yields `InvalidFormat`, a parseable move naming an out-of-bounds or occupied
cell yields `InvalidMove`; in both cases the mover leaves the rotation (and
no engine operation ever re-adds an absent name short of a reconnect), the
board is untouched, and the result carries the next rotation turn — a member
of the remaining rotation — or none when the rotation empties. -/
theorem gomoku_player_moves_rejections (g : Gomoku.Game) (tok : TurnToken)
    (pm : Gomoku.GPayload) (hmem : tok.user.name ∈ g.players.names) :
    (pm.parsed = none →
      ∃ g1 t, g.playerMoves tok pm = some (g1, PlayerMoveResult.InvalidFormat t) ∧
        tok.user.name ∉ g1.players.names ∧ g1.board = g.board ∧
        (t = none ↔ g1.players.players = []) ∧
        (∀ pt, t = some pt → pt.token.user ∈ g1.players.players)) ∧
    (∀ mov, pm.parsed = some mov →
      (g.board.at mov.x mov.y = none ∨
        ∃ u2, g.board.at mov.x mov.y = some (Gomoku.Cell.Occupied u2)) →
      ∃ g1 t, g.playerMoves tok pm = some (g1, PlayerMoveResult.InvalidMove t) ∧
        tok.user.name ∉ g1.players.names ∧ g1.board = g.board ∧
        (t = none ↔ g1.players.players = []) ∧
        (∀ pt, t = some pt → pt.token.user ∈ g1.players.players)) := by
  obtain ⟨tt, htt⟩ := removePlayer_isSome hmem
  constructor
  · intro hparse
    rcases hadv : tt.advancePlayer with ⟨p?, tt2⟩
    have hpl2 : tt2.players = tt.players := by
      have := advancePlayer_players tt
      rw [hadv] at this
      exact this
    have hnm : tok.user.name ∉ tt2.names := by
      rw [TurnTracker.names, hpl2]
      exact removePlayer_some_not_mem htt
    rcases p? with _ | p
    · have hE : tt.players = [] := (advancePlayer_fst_none_iff tt).mp (by rw [hadv])
      refine ⟨{ g with players := tt2 }, none,
        by simp [Gomoku.Game.playerMoves, hparse, htt, hadv], hnm, rfl,
        by simp [hpl2, hE], ?_⟩
      intro pt hpt
      exact absurd hpt (by simp)
    · have hpm : p ∈ tt.players := by
        have hfst : (tt.advancePlayer).1 = some p := by rw [hadv]
        exact advancePlayer_fst_mem hfst
      have hNE : tt.players ≠ [] := by
        intro hc
        have hnone := (advancePlayer_fst_none_iff tt).mpr hc
        rw [hadv] at hnone
        simp at hnone
      refine ⟨{ g with players := tt2 }, some ⟨⟨p⟩, g.board⟩,
        by simp [Gomoku.Game.playerMoves, hparse, htt, hadv], hnm, rfl,
        by simp [hpl2, hNE], ?_⟩
      intro pt hpt
      injection hpt with hpt
      subst hpt
      simp only [hpl2]
      exact hpm
  · intro mov hparse hbad
    have hinv : Gomoku.makeMove g tok.user mov = (g, Gomoku.InternalMoveResult.InvalidMove) := by
      unfold Gomoku.makeMove Gomoku.Board.tryPlace
      rcases hbad with hb | ⟨u2, hb⟩ <;> rw [hb]
    rcases hadv : tt.advancePlayer with ⟨p?, tt2⟩
    have hpl2 : tt2.players = tt.players := by
      have := advancePlayer_players tt
      rw [hadv] at this
      exact this
    have hnm : tok.user.name ∉ tt2.names := by
      rw [TurnTracker.names, hpl2]
      exact removePlayer_some_not_mem htt
    rcases p? with _ | p
    · have hE : tt.players = [] := (advancePlayer_fst_none_iff tt).mp (by rw [hadv])
      refine ⟨{ g with players := tt2 }, none,
        by simp [Gomoku.Game.playerMoves, hparse, hinv, htt, hadv], hnm, rfl,
        by simp [hpl2, hE], ?_⟩
      intro pt hpt
      exact absurd hpt (by simp)
    · have hpm : p ∈ tt.players := by
        have hfst : (tt.advancePlayer).1 = some p := by rw [hadv]
        exact advancePlayer_fst_mem hfst
      have hNE : tt.players ≠ [] := by
        intro hc
        have hnone := (advancePlayer_fst_none_iff tt).mpr hc
        rw [hadv] at hnone
        simp at hnone
      refine ⟨{ g with players := tt2 }, some ⟨⟨p⟩, g.board⟩,
        by simp [Gomoku.Game.playerMoves, hparse, hinv, htt, hadv], hnm, rfl,
        by simp [hpl2, hNE], ?_⟩
      intro pt hpt
      injection hpt with hpt
      subst hpt
      simp only [hpl2]
      exact hpm

/-- Witness for C7: a malformed payload from alice (rotation alice, bob) is
rejected as `InvalidFormat`, ejecting alice. -/
theorem gomoku_player_moves_rejections_witness :
    ∃ g1 t,
      (Gomoku.Game.new 3 3 [⟨"alice", ⟨0, 0, 0⟩⟩, ⟨"bob", ⟨1, 1, 1⟩⟩]).playerMoves
          ⟨⟨"alice", ⟨0, 0, 0⟩⟩⟩ ⟨none⟩ = some (g1, PlayerMoveResult.InvalidFormat t) ∧
        "alice" ∉ g1.players.names ∧
        g1.board = (Gomoku.Game.new 3 3 [⟨"alice", ⟨0, 0, 0⟩⟩, ⟨"bob", ⟨1, 1, 1⟩⟩]).board ∧
        (t = none ↔ g1.players.players = []) ∧
        (∀ pt, t = some pt → pt.token.user ∈ g1.players.players) :=
  (gomoku_player_moves_rejections (Gomoku.Game.new 3 3 [⟨"alice", ⟨0, 0, 0⟩⟩, ⟨"bob", ⟨1, 1, 1⟩⟩])
      ⟨⟨"alice", ⟨0, 0, 0⟩⟩⟩ ⟨none⟩ (by decide)).1 rfl

/-! ### Grouping lemmas for the win scan -/

namespace Gomoku

theorem chunkBy_nil_not_mem {α κ : Type} [DecidableEq κ] (k : α → κ) :
    ∀ l : List α, [] ∉ chunkBy k l := by
  intro l
  induction l with
  | nil => simp [chunkBy]
  | cons a rest ih =>
    rcases hc : chunkBy k rest with _ | ⟨c, gs⟩
    · simp [chunkBy, hc]
    · rcases c with _ | ⟨b, bs⟩
      · rw [hc] at ih
        exact absurd (List.mem_cons_self [] gs) ih
      · by_cases hk : k a = k b
        · simp only [chunkBy, hc, if_pos hk]
          intro hmem
          rcases List.mem_cons.mp hmem with h1 | h2
          · exact List.noConfusion h1
          · rw [hc] at ih
            exact ih (List.mem_cons_of_mem _ h2)
        · simp only [chunkBy, hc, if_neg hk]
          intro hmem
          rcases List.mem_cons.mp hmem with h1 | h2
          · exact List.noConfusion h1
          · rw [hc] at ih
            exact ih h2

theorem chunkBy_flatten {α κ : Type} [DecidableEq κ] (k : α → κ) :
    ∀ l : List α, (chunkBy k l).flatten = l := by
  intro l
  induction l with
  | nil => simp [chunkBy]
  | cons a rest ih =>
    rcases hc : chunkBy k rest with _ | ⟨c, gs⟩
    · rw [hc] at ih
      simp at ih
      simp [chunkBy, hc, ih]
    · rcases c with _ | ⟨b, bs⟩
      · exact absurd (by rw [hc]; exact List.mem_cons_self _ _) (chunkBy_nil_not_mem k rest)
      · rw [hc] at ih
        simp only [List.flatten_cons] at ih
        by_cases hk : k a = k b
        · simp only [chunkBy, hc, if_pos hk, List.flatten_cons, List.cons_append] at ih ⊢
          rw [ih]
        · simp only [chunkBy, hc, if_neg hk, List.flatten_cons, List.cons_append,
            List.singleton_append, List.nil_append] at ih ⊢
          rw [ih]

theorem chunkBy_const {α κ : Type} [DecidableEq κ] (k : α → κ) :
    ∀ l : List α, ∀ c ∈ chunkBy k l, ∃ kv, ∀ x ∈ c, k x = kv := by
  intro l
  induction l with
  | nil => simp [chunkBy]
  | cons a rest ih =>
    intro c hc0
    rcases hc : chunkBy k rest with _ | ⟨c0, gs⟩
    · simp only [chunkBy, hc, List.mem_singleton] at hc0
      subst hc0
      exact ⟨k a, by simp⟩
    · rcases c0 with _ | ⟨b, bs⟩
      · exact absurd (by rw [hc]; exact List.mem_cons_self _ _) (chunkBy_nil_not_mem k rest)
      · by_cases hk : k a = k b
        · simp only [chunkBy, hc, if_pos hk] at hc0
          rcases List.mem_cons.mp hc0 with h1 | h2
          · subst h1
            obtain ⟨kv, hkv⟩ := ih (b :: bs) (by rw [hc]; exact List.mem_cons_self _ _)
            refine ⟨kv, ?_⟩
            intro x hx
            rcases List.mem_cons.mp hx with hx1 | hx2
            · subst hx1
              rw [hk]
              exact hkv b (List.mem_cons_self _ _)
            · exact hkv x hx2
          · exact ih c (by rw [hc]; exact List.mem_cons_of_mem _ h2)
        · simp only [chunkBy, hc, if_neg hk] at hc0
          rcases List.mem_cons.mp hc0 with h1 | h2
          · subst h1
            exact ⟨k a, by simp⟩
          · exact ih c (by rw [hc]; exact h2)

theorem chunkBy_cons_head {α κ : Type} [DecidableEq κ] (k : α → κ) (a : α) (l : List α) :
    ∃ cs gs, chunkBy k (a :: l) = (a :: cs) :: gs := by
  rcases hc : chunkBy k l with _ | ⟨c0, gs0⟩
  · exact ⟨[], [], by simp [chunkBy, hc]⟩
  · rcases c0 with _ | ⟨b, bs⟩
    · exact ⟨[], [] :: gs0, by simp [chunkBy, hc]⟩
    · by_cases hk : k a = k b
      · exact ⟨b :: bs, gs0, by simp [chunkBy, hc, if_pos hk]⟩
      · exact ⟨[], (b :: bs) :: gs0, by simp [chunkBy, hc, if_neg hk]⟩

theorem chunkBy_prefix {α κ : Type} [DecidableEq κ] (k : α → κ) (l2 : List α) (kv : κ) :
    ∀ r : List α, r ≠ [] → (∀ x ∈ r, k x = kv) →
      ∃ c gs, chunkBy k (r ++ l2) = c :: gs ∧ r.length ≤ c.length ∧ ∀ x ∈ c, k x = kv := by
  intro r
  induction r with
  | nil => intro h; exact absurd rfl h
  | cons a r2 ih =>
    intro _ hkeys
    by_cases hr2 : r2 = []
    · subst hr2
      have hka : k a = kv := hkeys a (List.mem_cons_self _ _)
      obtain ⟨cs, gs, hc⟩ := chunkBy_cons_head k a l2
      refine ⟨a :: cs, gs, by simpa using hc, by simp, ?_⟩
      obtain ⟨kv2, hkv2⟩ := chunkBy_const k (a :: l2) (a :: cs)
        (by rw [hc]; exact List.mem_cons_self _ _)
      have h1 : kv2 = k a := (hkv2 a (List.mem_cons_self _ _)).symm
      intro x hx
      rw [hkv2 x hx, h1, hka]
    · have hka : k a = kv := hkeys a (List.mem_cons_self _ _)
      obtain ⟨c, gs, hcg, hlen, hkc⟩ := ih hr2 (fun x hx => hkeys x (List.mem_cons_of_mem _ hx))
      rcases c with _ | ⟨b, bs⟩
      · exact absurd (by rw [hcg]; exact List.mem_cons_self _ _) (chunkBy_nil_not_mem k _)
      · have hkb : k b = kv := hkc b (List.mem_cons_self _ _)
        have hk : k a = k b := by rw [hka, hkb]
        refine ⟨a :: b :: bs, gs, ?_, ?_, ?_⟩
        · show chunkBy k ((a :: r2) ++ l2) = _
          rw [List.cons_append]
          simp only [chunkBy, hcg, if_pos hk]
        · simpa using Nat.succ_le_succ hlen
        · intro x hx
          rcases List.mem_cons.mp hx with h1 | h2
          · subst h1; exact hka
          · exact hkc x h2

theorem chunkBy_run_sub {α κ : Type} [DecidableEq κ] (k : α → κ) (r l2 : List α) (kv : κ)
    (hr : r ≠ []) (hkeys : ∀ x ∈ r, k x = kv) :
    ∀ l1 : List α, ∃ c ∈ chunkBy k (l1 ++ r ++ l2), r.length ≤ c.length ∧ ∀ x ∈ c, k x = kv := by
  intro l1
  induction l1 with
  | nil =>
    obtain ⟨c, gs, hcg, hlen, hkc⟩ := chunkBy_prefix k l2 kv r hr hkeys
    refine ⟨c, ?_, hlen, hkc⟩
    simp only [List.nil_append]
    rw [hcg]
    exact List.mem_cons_self _ _
  | cons a l1' ih =>
    obtain ⟨c, hcmem, hlen, hkc⟩ := ih
    rcases hc : chunkBy k (l1' ++ r ++ l2) with _ | ⟨c0, gs⟩
    · rw [hc] at hcmem
      simp at hcmem
    · rcases c0 with _ | ⟨b, bs⟩
      · exact absurd (by rw [hc]; exact List.mem_cons_self _ _) (chunkBy_nil_not_mem k _)
      · rw [hc] at hcmem
        by_cases hk : k a = k b
        · rcases List.mem_cons.mp hcmem with h1 | h2
          · subst h1
            refine ⟨a :: b :: bs, ?_, ?_, ?_⟩
            · show _ ∈ chunkBy k ((a :: l1') ++ r ++ l2)
              simp only [List.cons_append]
              simp only [chunkBy, hc, if_pos hk]
              exact List.mem_cons_self _ _
            · exact Nat.le_succ_of_le (by simpa using hlen)
            · intro x hx
              rcases List.mem_cons.mp hx with hx1 | hx2
              · subst hx1
                rw [hk]
                exact hkc b (List.mem_cons_self _ _)
              · exact hkc x hx2
          · refine ⟨c, ?_, hlen, hkc⟩
            show _ ∈ chunkBy k ((a :: l1') ++ r ++ l2)
            simp only [List.cons_append]
            simp only [chunkBy, hc, if_pos hk]
            exact List.mem_cons_of_mem _ h2
        · refine ⟨c, ?_, hlen, hkc⟩
          show _ ∈ chunkBy k ((a :: l1') ++ r ++ l2)
          simp only [List.cons_append]
          simp only [chunkBy, hc, if_neg hk]
          exact List.mem_cons_of_mem _ hcmem

theorem chunkBy_mem_decomp {α κ : Type} [DecidableEq κ] (k : α → κ) {l : List α}
    {c : List α} (h : c ∈ chunkBy k l) : ∃ l1 l2, l = l1 ++ c ++ l2 := by
  obtain ⟨s, t, hst⟩ := List.append_of_mem h
  refine ⟨s.flatten, t.flatten, ?_⟩
  have := chunkBy_flatten k l
  rw [hst] at this
  rw [← this]
  simp [List.flatten_append, List.flatten_cons, List.append_assoc]

theorem maxByLen_none_iff {α : Type} (gs : List (List α)) : maxByLen gs = none ↔ gs = [] := by
  rcases gs with _ | ⟨a, rest⟩
  · simp [maxByLen]
  · simp only [maxByLen]
    rcases maxByLen rest with _ | b <;> simp

theorem maxByLen_mem {α : Type} :
    ∀ (gs : List (List α)) (c : List α), maxByLen gs = some c → c ∈ gs := by
  intro gs
  induction gs with
  | nil => intro c h; simp [maxByLen] at h
  | cons a rest ih =>
    intro c h
    rcases hm : maxByLen rest with _ | b
    · rw [maxByLen, hm] at h
      injection h with h
      subst h
      exact List.mem_cons_self _ _
    · rw [maxByLen, hm] at h
      injection h with h
      by_cases hlt : b.length < a.length
      · rw [if_pos hlt] at h
        subst h
        exact List.mem_cons_self _ _
      · rw [if_neg hlt] at h
        subst h
        exact List.mem_cons_of_mem _ (ih b hm)

theorem maxByLen_ge {α : Type} :
    ∀ (gs : List (List α)) (c : List α), maxByLen gs = some c →
      ∀ d ∈ gs, d.length ≤ c.length := by
  intro gs
  induction gs with
  | nil => intro c h; simp [maxByLen] at h
  | cons a rest ih =>
    intro c h d hd
    rcases hm : maxByLen rest with _ | b
    · rw [maxByLen, hm] at h
      injection h with h
      subst h
      have : rest = [] := (maxByLen_none_iff rest).mp hm
      subst this
      simp at hd
      subst hd
      exact le_refl _
    · rw [maxByLen, hm] at h
      injection h with h
      rcases List.mem_cons.mp hd with h1 | h2
      · subst h1
        by_cases hlt : b.length < d.length
        · rw [if_pos hlt] at h; subst h; exact le_refl _
        · rw [if_neg hlt] at h; subst h; exact Nat.le_of_not_lt hlt
      · have hdb : d.length ≤ b.length := ih b hm d h2
        by_cases hlt : b.length < a.length
        · rw [if_pos hlt] at h; subst h; exact le_trans hdb (Nat.le_of_lt hlt)
        · rw [if_neg hlt] at h; subst h; exact hdb

theorem maxByLen_some_of_ne_nil {α : Type} (gs : List (List α)) (h : gs ≠ []) :
    ∃ c, maxByLen gs = some c := by
  rcases hm : maxByLen gs with _ | c
  · exact absurd ((maxByLen_none_iff gs).mp hm) h
  · exact ⟨c, rfl⟩

end Gomoku

namespace Gomoku

/-- Spec-side (from the claim's words): the scan of `pts` contains a
contiguous run of at least five cells all occupied by one owner, whose first
and last coordinates are `e`. -/
def ownerRunEnds (b : Board) (pts : List (Int × Int)) (e : FirstAndLast) : Prop :=
  ∃ l1 r l2 u, scanLine b pts = l1 ++ r ++ l2 ∧ 5 ≤ r.length ∧
    (∀ it ∈ r, it.1 = some (Cell.Occupied u)) ∧
    ∃ hr : r ≠ [], (r.head hr).2 = e.1 ∧ (r.getLast hr).2 = e.2

/-- Spec-side: some owner has a contiguous run of length at least 5 in `pts`. -/
def ownerRun (b : Board) (pts : List (Int × Int)) : Prop :=
  ∃ e, ownerRunEnds b pts e

theorem rangeContainsWin_some_run {b : Board} {pts : List (Int × Int)} {e : FirstAndLast}
    (h : rangeContainsWin b pts = some e) :
    ∃ l1 r l2 kv, scanLine b pts = l1 ++ r ++ l2 ∧ 5 ≤ r.length ∧
      (∀ it ∈ r, it.1 = kv) ∧
      ∃ hr : r ≠ [], (r.head hr).2 = e.1 ∧ (r.getLast hr).2 = e.2 := by
  rcases hm : maxByLen (chunkBy (fun it : ScanItem => it.1) (scanLine b pts)) with _ | c
  · simp only [rangeContainsWin, hm] at h
    exact Option.noConfusion h
  · rcases c with _ | ⟨a, rest⟩
    · simp only [rangeContainsWin, hm] at h
      exact Option.noConfusion h
    · simp only [rangeContainsWin, hm] at h
      by_cases h5 : 5 ≤ (a :: rest).length
      · rw [if_pos h5] at h
        injection h with h
        have hmem := maxByLen_mem _ _ hm
        obtain ⟨l1, l2, hdec⟩ := chunkBy_mem_decomp _ hmem
        obtain ⟨kv, hkv⟩ := chunkBy_const _ _ _ hmem
        refine ⟨l1, a :: rest, l2, kv, hdec, h5, hkv, List.cons_ne_nil a rest, ?_, ?_⟩
        · rw [← h]
          rfl
        · rw [← h]
      · rw [if_neg h5] at h
        exact absurd h (by simp)

theorem rangeContainsWin_isSome_of_run {b : Board} {pts : List (Int × Int)}
    {l1 r l2 : List ScanItem} {kv : Option Cell}
    (hsc : scanLine b pts = l1 ++ r ++ l2) (h5 : 5 ≤ r.length)
    (hkeys : ∀ it ∈ r, it.1 = kv) :
    ∃ e, rangeContainsWin b pts = some e := by
  have hrne : r ≠ [] := by
    intro hcnil
    rw [hcnil] at h5
    simp at h5
  obtain ⟨c, hcmem, hclen, _⟩ :=
    chunkBy_run_sub (fun it : ScanItem => it.1) r l2 kv hrne hkeys l1
  rw [← hsc] at hcmem
  have hne : chunkBy (fun it : ScanItem => it.1) (scanLine b pts) ≠ [] := by
    intro h0
    rw [h0] at hcmem
    simp at hcmem
  obtain ⟨m, hm⟩ := maxByLen_some_of_ne_nil _ hne
  have hml : c.length ≤ m.length := maxByLen_ge _ _ hm c hcmem
  have h5m : 5 ≤ m.length := le_trans (le_trans h5 hclen) hml
  rcases m with _ | ⟨a, rest⟩
  · simp at h5m
  · refine ⟨(a.2, ((a :: rest).getLast (List.cons_ne_nil a rest)).2), ?_⟩
    simp only [rangeContainsWin, hm]
    rw [if_pos h5m]

theorem run_key_at_center {b : Board} {pts : List (Int × Int)} {x y : Int}
    {l1 r l2 : List ScanItem} {kv : Option Cell}
    (hlen : pts.length = 9) (h4 : pts[4]? = some (x, y))
    (hsc : scanLine b pts = l1 ++ r ++ l2) (h5 : 5 ≤ r.length)
    (hkeys : ∀ it ∈ r, it.1 = kv) :
    kv = b.at x y := by
  have hup : (scanLine b pts)[4]? = some (b.at x y, (x, y)) := by
    unfold scanLine
    rw [List.getElem?_map, h4]
    rfl
  have hsl : (scanLine b pts).length = 9 := by
    simp [scanLine, hlen]
  rw [hsc] at hsl hup
  have htot : l1.length + r.length + l2.length = 9 := by
    rw [List.length_append, List.length_append] at hsl
    omega
  have hl14 : l1.length ≤ 4 := by omega
  have hlt9 : (4 : Nat) < (l1 ++ r).length := by
    rw [List.length_append]
    omega
  rw [List.getElem?_append_left hlt9] at hup
  rw [List.getElem?_append_right hl14] at hup
  have hidx : 4 - l1.length < r.length := by omega
  have hmem : ((b.at x y, (x, y)) : ScanItem) ∈ r := by
    obtain ⟨hlt2, hget⟩ := List.getElem?_eq_some.mp hup
    exact hget ▸ r.getElem_mem hlt2
  exact (hkeys _ hmem).symm

theorem vertWindow_facts (x y : Int) :
    (vertWindow x y).length = 9 ∧ (vertWindow x y)[4]? = some (x, y) := by
  refine ⟨rfl, ?_⟩
  have h0 : (vertWindow x y)[4]? = some (x, y - 4 + ((4 : Nat) : Int)) := rfl
  rw [h0]
  norm_num

theorem diagWindow_facts (x y : Int) :
    (diagWindow x y).length = 9 ∧ (diagWindow x y)[4]? = some (x, y) := by
  refine ⟨rfl, ?_⟩
  have h0 : (diagWindow x y)[4]? =
      some (x - 4 + ((4 : Nat) : Int), y - 4 + ((4 : Nat) : Int)) := rfl
  rw [h0]
  norm_num

theorem horizWindow_facts (x y : Int) :
    (horizWindow x y).length = 9 ∧ (horizWindow x y)[4]? = some (x, y) := by
  refine ⟨rfl, ?_⟩
  have h0 : (horizWindow x y)[4]? = some (x - 4 + ((4 : Nat) : Int), y) := rfl
  rw [h0]
  norm_num

theorem antiWindow_facts (x y : Int) :
    (antiWindow x y).length = 9 ∧ (antiWindow x y)[4]? = some (x, y) := by
  refine ⟨rfl, ?_⟩
  have h0 : (antiWindow x y)[4]? =
      some (x - 4 + ((4 : Nat) : Int), y + 4 - ((4 : Nat) : Int)) := rfl
  rw [h0]
  norm_num

theorem rangeContainsWin_spec {b : Board} {pts : List (Int × Int)} {x y : Int} {u : User}
    (hlen : pts.length = 9) (h4 : pts[4]? = some (x, y))
    (hc : b.at x y = some (Cell.Occupied u)) :
    ((∃ e, rangeContainsWin b pts = some e) ↔ ownerRun b pts) ∧
    (∀ e, rangeContainsWin b pts = some e → ownerRunEnds b pts e) := by
  have hsnd : ∀ e, rangeContainsWin b pts = some e → ownerRunEnds b pts e := by
    intro e he
    obtain ⟨l1, r, l2, kv, hsc, h5, hkeys, hr, hh, hl⟩ := rangeContainsWin_some_run he
    have hkv : kv = some (Cell.Occupied u) := by
      rw [run_key_at_center hlen h4 hsc h5 hkeys, hc]
    refine ⟨l1, r, l2, u, hsc, h5, ?_, hr, hh, hl⟩
    intro it hit
    rw [hkeys it hit, hkv]
  refine ⟨⟨?_, ?_⟩, hsnd⟩
  · intro ⟨e, he⟩
    exact ⟨e, hsnd e he⟩
  · intro ⟨e, l1, r, l2, u2, hsc, h5, hkeys, _⟩
    exact rangeContainsWin_isSome_of_run hsc h5 hkeys

end Gomoku

namespace Gomoku

/-- The board written by `try_place`'s Empty branch. -/
def placedBoard (b : Board) (u : User) (x y : Nat) : Board :=
  { b with cells := b.cells.set (y * b.width + x) (Cell.Occupied u) }

theorem tryPlace_empty {b : Board} {u : User} {x y : Nat} (h : b.at x y = some Cell.Empty) :
    b.tryPlace u x y = (placedBoard b u x y, checkForWinAround (placedBoard b u x y) x y) := by
  simp only [Board.tryPlace, h]
  rfl

theorem placed_at {b : Board} {x y : Nat} (h : b.at x y = some Cell.Empty) (u : User) :
    (placedBoard b u x y).at x y = some (Cell.Occupied u) := by
  have hidx : ((y : Int)).toNat * b.width + ((x : Int)).toNat = y * b.width + x := by
    simp
  unfold Board.at at h ⊢
  simp only [placedBoard] at h ⊢
  by_cases hcond : ((x : Int) < 0 ∨ (y : Int) < 0 ∨
      ((b.width : Int) ≤ (x : Int)) ∨ ((b.height : Int) ≤ (y : Int)))
  · rw [if_pos hcond] at h
    exact Option.noConfusion h
  · rw [if_neg hcond] at h
    rw [if_neg hcond]
    rw [hidx] at h ⊢
    obtain ⟨hlt, _⟩ := List.get?_eq_some.mp h
    exact List.get?_set_eq_of_lt (Cell.Occupied u) hlt

theorem checkForWinAround_eq (b : Board) (x y : Nat) :
    checkForWinAround b x y =
      match (rangeContainsWin b (vertWindow (x : Int) (y : Int))).orElse (fun _ =>
            (rangeContainsWin b (diagWindow (x : Int) (y : Int))).orElse (fun _ =>
            (rangeContainsWin b (horizWindow (x : Int) (y : Int))).orElse (fun _ =>
             rangeContainsWin b (antiWindow (x : Int) (y : Int))))) with
      | some coords => PlaceResult.Win coords
      | none => PlaceResult.Ok := rfl

theorem checkForWinAround_spec (b : Board) (x y : Nat) (u : User)
    (hc : b.at (x : Int) (y : Int) = some (Cell.Occupied u)) :
    ((∃ e, checkForWinAround b x y = PlaceResult.Win e) ↔
      ∃ w ∈ windows (x : Int) (y : Int), ownerRun b w) ∧
    (∀ e, checkForWinAround b x y = PlaceResult.Win e →
      ∃ w ∈ windows (x : Int) (y : Int), ownerRunEnds b w e) := by
  obtain ⟨hl1, h41⟩ := vertWindow_facts (x : Int) (y : Int)
  obtain ⟨hl2, h42⟩ := diagWindow_facts (x : Int) (y : Int)
  obtain ⟨hl3, h43⟩ := horizWindow_facts (x : Int) (y : Int)
  obtain ⟨hl4, h44⟩ := antiWindow_facts (x : Int) (y : Int)
  have s1 := rangeContainsWin_spec hl1 h41 hc
  have s2 := rangeContainsWin_spec hl2 h42 hc
  have s3 := rangeContainsWin_spec hl3 h43 hc
  have s4 := rangeContainsWin_spec hl4 h44 hc
  have hmem1 : vertWindow (x : Int) (y : Int) ∈ windows (x : Int) (y : Int) := by
    simp [windows]
  have hmem2 : diagWindow (x : Int) (y : Int) ∈ windows (x : Int) (y : Int) := by
    simp [windows]
  have hmem3 : horizWindow (x : Int) (y : Int) ∈ windows (x : Int) (y : Int) := by
    simp [windows]
  have hmem4 : antiWindow (x : Int) (y : Int) ∈ windows (x : Int) (y : Int) := by
    simp [windows]
  rcases h1 : rangeContainsWin b (vertWindow (x : Int) (y : Int)) with _ | e1
  case some =>
    have hck : checkForWinAround b x y = PlaceResult.Win e1 := by
      rw [checkForWinAround_eq, h1]
      rfl
    refine ⟨⟨fun _ => ⟨_, hmem1, s1.1.mp ⟨e1, h1⟩⟩, fun _ => ⟨e1, hck⟩⟩, ?_⟩
    intro e he
    rw [hck] at he
    injection he with he
    subst he
    exact ⟨_, hmem1, s1.2 e1 h1⟩
  case none =>
  rcases h2 : rangeContainsWin b (diagWindow (x : Int) (y : Int)) with _ | e2
  case some =>
    have hck : checkForWinAround b x y = PlaceResult.Win e2 := by
      rw [checkForWinAround_eq, h1, h2]
      rfl
    refine ⟨⟨fun _ => ⟨_, hmem2, s2.1.mp ⟨e2, h2⟩⟩, fun _ => ⟨e2, hck⟩⟩, ?_⟩
    intro e he
    rw [hck] at he
    injection he with he
    subst he
    exact ⟨_, hmem2, s2.2 e2 h2⟩
  case none =>
  rcases h3 : rangeContainsWin b (horizWindow (x : Int) (y : Int)) with _ | e3
  case some =>
    have hck : checkForWinAround b x y = PlaceResult.Win e3 := by
      rw [checkForWinAround_eq, h1, h2, h3]
      rfl
    refine ⟨⟨fun _ => ⟨_, hmem3, s3.1.mp ⟨e3, h3⟩⟩, fun _ => ⟨e3, hck⟩⟩, ?_⟩
    intro e he
    rw [hck] at he
    injection he with he
    subst he
    exact ⟨_, hmem3, s3.2 e3 h3⟩
  case none =>
  rcases h4 : rangeContainsWin b (antiWindow (x : Int) (y : Int)) with _ | e4
  case some =>
    have hck : checkForWinAround b x y = PlaceResult.Win e4 := by
      rw [checkForWinAround_eq, h1, h2, h3, h4]
      rfl
    refine ⟨⟨fun _ => ⟨_, hmem4, s4.1.mp ⟨e4, h4⟩⟩, fun _ => ⟨e4, hck⟩⟩, ?_⟩
    intro e he
    rw [hck] at he
    injection he with he
    subst he
    exact ⟨_, hmem4, s4.2 e4 h4⟩
  case none =>
    have hck : checkForWinAround b x y = PlaceResult.Ok := by
      rw [checkForWinAround_eq, h1, h2, h3, h4]
      rfl
    constructor
    · constructor
      · intro ⟨e, he⟩
        rw [hck] at he
        exact PlaceResult.noConfusion he
      · intro ⟨w, hwmem, hrun⟩
        exfalso
        simp only [windows, List.mem_cons, List.mem_singleton, List.not_mem_nil, or_false]
          at hwmem
        rcases hwmem with rfl | rfl | rfl | rfl
        · obtain ⟨e, he⟩ := s1.1.mpr hrun
          rw [h1] at he
          exact Option.noConfusion he
        · obtain ⟨e, he⟩ := s2.1.mpr hrun
          rw [h2] at he
          exact Option.noConfusion he
        · obtain ⟨e, he⟩ := s3.1.mpr hrun
          rw [h3] at he
          exact Option.noConfusion he
        · obtain ⟨e, he⟩ := s4.1.mpr hrun
          rw [h4] at he
          exact Option.noConfusion he
    · intro e he
      rw [hck] at he
      exact PlaceResult.noConfusion he

/-- The scenario player of spec §8 property 5. -/
def scenarioP1 : User := ⟨"p1", ⟨0, 0, 0⟩⟩

/-- A 10×10 game after the same player placed (5,5), (6,5), (7,5), (8,5). -/
def fourInRowGame : Game :=
  [(5, 5), (6, 5), (7, 5), (8, 5)].foldl
    (fun g m => (makeMove g scenarioP1 ⟨m.1, m.2⟩).1) (Game.new 10 10 [scenarioP1])

end Gomoku

theorem checkForWinAround_ne_invalid (b : Gomoku.Board) (x y : Nat) :
    Gomoku.checkForWinAround b x y ≠ Gomoku.PlaceResult.InvalidMove := by
  rw [Gomoku.checkForWinAround_eq]
  rcases (Gomoku.rangeContainsWin b (Gomoku.vertWindow (x : Int) (y : Int))).orElse (fun _ =>
      (Gomoku.rangeContainsWin b (Gomoku.diagWindow (x : Int) (y : Int))).orElse (fun _ =>
      (Gomoku.rangeContainsWin b (Gomoku.horizWindow (x : Int) (y : Int))).orElse (fun _ =>
       Gomoku.rangeContainsWin b (Gomoku.antiWindow (x : Int) (y : Int))))) with _ | c <;> simp

/-- C4: after a successful placement at (x,y), the five-in-a-row engine's
result is Win exactly when one of the four scanned orientations through the
placed cell (each a symmetric 9-cell window) contains a contiguous run of
one owner's cells of length at least 5, and the recorded win line carries
that run's first and last coordinates; in particular on a 10×10 board
placing (5,5),(6,5),(7,5),(8,5) then (9,5) for one player yields Win with
endpoints ((5,5),(9,5)). -/
theorem gomoku_win_scan (g : Gomoku.Game) (u : User) (x y : Nat)
    (hempty : g.board.at (x : Int) (y : Int) = some Gomoku.Cell.Empty)
    (hw : g.winner = none) :
    ((Gomoku.makeMove g u ⟨x, y⟩).2 = Gomoku.InternalMoveResult.Win ↔
      ∃ w ∈ Gomoku.windows (x : Int) (y : Int),
        Gomoku.ownerRun (Gomoku.placedBoard g.board u x y) w) ∧
    (∀ w0 e, (Gomoku.makeMove g u ⟨x, y⟩).1.winner = some (w0, e) →
      w0 = u ∧ ∃ w ∈ Gomoku.windows (x : Int) (y : Int),
        Gomoku.ownerRunEnds (Gomoku.placedBoard g.board u x y) w e) ∧
    ((Gomoku.makeMove Gomoku.fourInRowGame Gomoku.scenarioP1 ⟨9, 5⟩).2 =
        Gomoku.InternalMoveResult.Win ∧
      (Gomoku.makeMove Gomoku.fourInRowGame Gomoku.scenarioP1 ⟨9, 5⟩).1.winner =
        some (Gomoku.scenarioP1, ((5, 5), (9, 5)))) := by
  have hc := Gomoku.placed_at hempty u
  have hspec := Gomoku.checkForWinAround_spec (Gomoku.placedBoard g.board u x y) x y u hc
  have htp := @Gomoku.tryPlace_empty g.board u x y hempty
  have hscen : (Gomoku.makeMove Gomoku.fourInRowGame Gomoku.scenarioP1 ⟨9, 5⟩).2 =
      Gomoku.InternalMoveResult.Win ∧
      (Gomoku.makeMove Gomoku.fourInRowGame Gomoku.scenarioP1 ⟨9, 5⟩).1.winner =
        some (Gomoku.scenarioP1, ((5, 5), (9, 5))) := by
    constructor
    · decide
    · decide
  rcases hck : Gomoku.checkForWinAround (Gomoku.placedBoard g.board u x y) x y with _ | e0 | _
  case InvalidMove => exact absurd hck (checkForWinAround_ne_invalid _ x y)
  case Win =>
    have hmk : Gomoku.makeMove g u ⟨x, y⟩ =
        (⟨Gomoku.placedBoard g.board u x y, some (u, e0), g.players⟩,
          Gomoku.InternalMoveResult.Win) := by
      simp only [Gomoku.makeMove, htp, hck]
    refine ⟨?_, ?_, hscen⟩
    · rw [hmk]
      exact iff_of_true rfl (hspec.1.mp ⟨e0, hck⟩)
    · intro w0 e he
      rw [hmk] at he
      have he2 : (some (u, e0) : Option (User × Gomoku.FirstAndLast)) = some (w0, e) := he
      injection he2 with he2
      injection he2 with hw0 he0
      subst hw0
      subst he0
      exact ⟨rfl, hspec.2 _ hck⟩
  case Ok =>
    have hnr : ¬ ∃ w ∈ Gomoku.windows (x : Int) (y : Int),
        Gomoku.ownerRun (Gomoku.placedBoard g.board u x y) w := by
      intro hrun
      obtain ⟨e, he⟩ := hspec.1.mpr hrun
      rw [hck] at he
      exact Gomoku.PlaceResult.noConfusion he
    by_cases hfull : (Gomoku.placedBoard g.board u x y).isFull
    · have hmk : Gomoku.makeMove g u ⟨x, y⟩ =
          (⟨Gomoku.placedBoard g.board u x y, g.winner, g.players⟩,
            Gomoku.InternalMoveResult.Draw) := by
        simp only [Gomoku.makeMove, htp, hck, hfull, if_pos]
      refine ⟨?_, ?_, hscen⟩
      · rw [hmk]
        exact iff_of_false (by simp) hnr
      · intro w0 e he
        rw [hmk] at he
        have he2 : g.winner = some (w0, e) := he
        rw [hw] at he2
        exact Option.noConfusion he2
    · have hmk : Gomoku.makeMove g u ⟨x, y⟩ =
          (⟨Gomoku.placedBoard g.board u x y, g.winner, g.players⟩,
            Gomoku.InternalMoveResult.Ok) := by
        simp only [Gomoku.makeMove, htp, hck, hfull, if_neg]
        simp
      refine ⟨?_, ?_, hscen⟩
      · rw [hmk]
        exact iff_of_false (by simp) hnr
      · intro w0 e he
        rw [hmk] at he
        have he2 : g.winner = some (w0, e) := he
        rw [hw] at he2
        exact Option.noConfusion he2

/-- Witness for C4: the spec scenario, instantiated through the theorem. -/
theorem gomoku_win_scan_witness :
    (Gomoku.makeMove Gomoku.fourInRowGame Gomoku.scenarioP1 ⟨9, 5⟩).2 =
        Gomoku.InternalMoveResult.Win ∧
      (Gomoku.makeMove Gomoku.fourInRowGame Gomoku.scenarioP1 ⟨9, 5⟩).1.winner =
        some (Gomoku.scenarioP1, ((5, 5), (9, 5))) :=
  (gomoku_win_scan Gomoku.fourInRowGame Gomoku.scenarioP1 9 5 (by decide) (by decide)).2.2

/-! ## Controller (src/controller.rs)

The controller loop is embedded as a step function over an explicit state,
parameterized by a rule-engine capability record (`GameTrait`, with engine
state `G`, snapshot type `S` and move payload `M`).  One loop iteration
processes one selected event.  tokio channels are modelled by `Env`:
`your_turn`'s i-th delivery attempt succeeds iff `yourTurnSendOk i`, the
game-over broadcast to player `p` succeeds iff `gameOverSendOk p`, and the
one-shot error reply to a rejected mover succeeds iff `errSendOk`.  A
`Move`/`PlayerMoveDropped` event can only be selected while a pending-move
receiver is held (the `select!` polls it only then); with no receiver the
reply is structurally unobservable, modelled as an unchanged state.  `none`
of an engine call never panics here: the interface is total, matching the
trait; the panics of the reference engines are modelled in their own
embeddings above.  `your_turn`'s retry loop terminates in the source only
because engines shrink their rotation; for an arbitrary interface it is
fuel-bounded, with `outOfFuel` kept distinct from a panic. -/

namespace Ctrl

/-- `gametraits::GameTrait` as a capability record. -/
structure GameI (G S M : Type) where
  player_moves : G → TurnToken → M → G × PlayerMoveResult S
  current_player_disconnected : G → TurnToken → G × Option (PlayerTurn S)
  try_start_game : G → G × Option (PlayerTurn S)
  player_connected : G → User → G
  player_disconnected : G → String → G

/-- `controller::GameMode`. -/
inductive GameMode where
  | Practice
  | Gating
  | Competition
deriving DecidableEq, Repr

/-- `controller::ControllerInfo` (durations in milliseconds). -/
structure ControllerInfo where
  connected_users : List User
  game_mode : GameMode
  score : List (String × Nat)
  turndelay : Nat
  windelay : Nat
deriving DecidableEq, Repr

/-- `ControllerInfo::default`. -/
def defaultInfo : ControllerInfo := ⟨[], GameMode.Practice, [], 200, 500⟩

/-- `ControllerInfo::add_player_win`: bump the winner's count, inserting 1 on
a first win (`HashMap` update on the association list). -/
def addPlayerWin : List (String × Nat) → String → List (String × Nat)
  | [], name => [(name, 1)]
  | (k, v) :: rest, name =>
    if k = name then (k, v + 1) :: rest else (k, v) :: addPlayerWin rest name

/-- A name's win count (0 when absent). -/
def scoreOf : List (String × Nat) → String → Nat
  | [], _ => 0
  | (k, v) :: rest, n => if k = n then v else scoreOf rest n

/-- Channel environment for one event's processing. -/
structure Env where
  yourTurnSendOk : Nat → Bool
  gameOverSendOk : String → Bool
  errSendOk : Bool

/-- `controller::ControllerMsg` plus the two move-channel outcomes of the
`select!`, i.e. everything one loop iteration can consume. -/
inductive Event (M : Type) where
  | ImConnected (name : String)
  | ImDisconnected (name : String)
  | GoToMode (m : GameMode)
  | ResetGame
  | SetTurnDelay (d : Nat)
  | SetWinDelay (d : Nat)
  | Move (mov : M)
  | PlayerMoveDropped

/-- The controller loop's local state: engine, whether a pending-move
receiver is held, the outstanding turn token, registry, settings. -/
structure CState (G : Type) where
  game : G
  p_move_rx : Bool
  turn_token : Option TurnToken
  players : PlayerTable
  info : ControllerInfo
deriving DecidableEq, Repr

/-- Outcome of one loop iteration. -/
inductive StepRes (G : Type) where
  | panicked
  | outOfFuel
  | ok (st : CState G)
deriving DecidableEq, Repr

/-- Outcome of `your_turn`. -/
inductive YtRes (G : Type) where
  | panicked
  | outOfFuel
  | done (g : G) (issued : Option TurnToken)
deriving DecidableEq, Repr

/-- `player_info_to_user`. -/
def playerInfoToUser (p : PlayerInfo) : User := ⟨p.name, p.color⟩

/-- `your_turn`: abort issuing no turn in Gating; look the token's user up
in the registry (an absent name panics, as the source unwraps); attempt
delivery; on failure hand the stale token to
`current_player_disconnected` and retry with the replacement turn. -/
def yourTurn {G S M : Type} (I : GameI G S M) (players : PlayerTable)
    (info : ControllerInfo) (env : Env) :
    Nat → Nat → G → TurnToken → S → YtRes G
  | 0, _, _, _, _ => YtRes.outOfFuel
  | fuel + 1, i, g, tok, _st =>
    if info.game_mode = GameMode.Gating then YtRes.done g none
    else
      match players.get tok.user.name with
      | none => YtRes.panicked
      | some _ =>
        if env.yourTurnSendOk i then YtRes.done g (some tok)
        else
          match I.current_player_disconnected g tok with
          | (g2, some pt) => yourTurn I players info env fuel (i + 1) g2 pt.token pt.state
          | (g2, none) => YtRes.done g2 none

/-- Lift a `your_turn` outcome to the new loop state, with the registry and
settings it ran under (the `(p_move_rx, turn_token) = ...` assignments). -/
def dispatchTurn {G S M : Type} (I : GameI G S M) (players : PlayerTable)
    (info : ControllerInfo) (env : Env) (fuel : Nat) (g : G) (pt : PlayerTurn S) : StepRes G :=
  match yourTurn I players info env fuel 0 g pt.token pt.state with
  | YtRes.panicked => StepRes.panicked
  | YtRes.outOfFuel => StepRes.outOfFuel
  | YtRes.done g2 (some tok) => StepRes.ok ⟨g2, true, some tok, players, info⟩
  | YtRes.done g2 none => StepRes.ok ⟨g2, false, none, players, info⟩

/-- `send_to_all`: broadcast game-over, then remove every player whose
channel send failed. -/
def sendToAll (players : PlayerTable) (env : Env) : PlayerTable :=
  (players.players.filter (fun p => !(env.gameOverSendOk p.name))).foldl
    (fun t p => (t.removePlayer p.name).1) players

/-- `controller::PlayerMovesReturn`. -/
inductive PlayerMovesReturn where
  | None
  | Next (tok : TurnToken)
  | GameOver
deriving DecidableEq, Repr

/-- Outcome of `react_to_player_move`. -/
inductive ReactRes (G : Type) where
  | panicked
  | outOfFuel
  | ok (g : G) (info : ControllerInfo) (players : PlayerTable) (ret : PlayerMovesReturn)
deriving DecidableEq, Repr

/-- Glue mapping a dispatch outcome into `react_to_player_move`'s result
(the `.into()` from `Option<(receiver, token)>`). -/
def ytToReact {G : Type} (info : ControllerInfo) (players : PlayerTable) :
    YtRes G → ReactRes G
  | YtRes.panicked => ReactRes.panicked
  | YtRes.outOfFuel => ReactRes.outOfFuel
  | YtRes.done g2 (some tok) => ReactRes.ok g2 info players (PlayerMovesReturn.Next tok)
  | YtRes.done g2 none => ReactRes.ok g2 info players PlayerMovesReturn.None

/-- `react_to_player_move`.  `Ok` dispatches the next turn; `Draw`
broadcasts; `Win` broadcasts and unconditionally bumps the mover's score;
the two rejection results first send the error reply to the offender's
one-shot channel and UNWRAP it — a failed send panics — then dispatch the
replacement turn if the engine supplied one. -/
def reactToPlayerMove {G S M : Type} (I : GameI G S M) (env : Env) (fuel : Nat)
    (who : String) (res : PlayerMoveResult S) (g : G)
    (info : ControllerInfo) (players : PlayerTable) : ReactRes G :=
  match res with
  | PlayerMoveResult.Ok pt =>
    ytToReact info players (yourTurn I players info env fuel 0 g pt.token pt.state)
  | PlayerMoveResult.Draw =>
    ReactRes.ok g info (sendToAll players env) PlayerMovesReturn.GameOver
  | PlayerMoveResult.Win =>
    ReactRes.ok g { info with score := addPlayerWin info.score who }
      (sendToAll players env) PlayerMovesReturn.GameOver
  | PlayerMoveResult.InvalidMove maybe =>
    if env.errSendOk then
      match maybe with
      | some pt =>
        ytToReact info players (yourTurn I players info env fuel 0 g pt.token pt.state)
      | none => ReactRes.ok g info players PlayerMovesReturn.None
    else ReactRes.panicked
  | PlayerMoveResult.InvalidFormat maybe =>
    if env.errSendOk then
      match maybe with
      | some pt =>
        ytToReact info players (yourTurn I players info env fuel 0 g pt.token pt.state)
      | none => ReactRes.ok g info players PlayerMovesReturn.None
    else ReactRes.panicked

/-- The per-event body of `controller_loop` (before the roster republish). -/
def stepBody {G S M : Type} (I : GameI G S M) (maker : List User → G) (env : Env)
    (fuel : Nat) (st : CState G) : Event M → StepRes G
  | Event.ImConnected name =>
    let ap := st.players.addNewPlayer name
    let g1 := I.player_connected st.game (playerInfoToUser ap.2)
    if st.p_move_rx then
      StepRes.ok { st with game := g1, players := ap.1 }
    else
      match I.try_start_game g1 with
      | (g2, some pt) => dispatchTurn I ap.1 st.info env fuel g2 pt
      | (g2, none) => StepRes.ok { st with game := g2, players := ap.1 }
  | Event.ImDisconnected name =>
    match st.turn_token with
    | none => StepRes.ok st
    | some token =>
      if token.user.name = name then
        match I.current_player_disconnected st.game token with
        | (g1, some pt) => dispatchTurn I st.players st.info env fuel g1 pt
        | (g1, none) => StepRes.ok { st with game := g1, p_move_rx := false, turn_token := none }
      else
        let rp := st.players.removePlayer name
        let g1 := if rp.2 then I.player_disconnected st.game name else st.game
        StepRes.ok { st with game := g1, players := rp.1, turn_token := some token }
  | Event.GoToMode m =>
    let infoA := { st.info with game_mode := m }
    if st.info.game_mode = GameMode.Gating ∧ m ≠ GameMode.Gating then
      match I.try_start_game st.game with
      | (g2, some pt) => dispatchTurn I st.players infoA env fuel g2 pt
      | (g2, none) => StepRes.ok { st with game := g2, info := infoA }
    else if m = GameMode.Gating then
      StepRes.ok
        { st with info := { infoA with score := [] }, game := maker [], p_move_rx := false }
    else
      StepRes.ok { st with info := infoA }
  | Event.ResetGame => StepRes.ok st
  | Event.SetTurnDelay d => StepRes.ok { st with info := { st.info with turndelay := d } }
  | Event.SetWinDelay d => StepRes.ok { st with info := { st.info with windelay := d } }
  | Event.Move mov =>
    match st.turn_token with
    | none => StepRes.panicked
    | some token =>
      let pm := I.player_moves st.game token mov
      match reactToPlayerMove I env fuel token.user.name pm.2 pm.1 st.info st.players with
      | ReactRes.panicked => StepRes.panicked
      | ReactRes.outOfFuel => StepRes.outOfFuel
      | ReactRes.ok g2 info2 players2 PlayerMovesReturn.None =>
        StepRes.ok ⟨g2, false, none, players2, info2⟩
      | ReactRes.ok g2 info2 players2 (PlayerMovesReturn.Next tok) =>
        StepRes.ok ⟨g2, true, some tok, players2, info2⟩
      | ReactRes.ok _g2 info2 players2 PlayerMovesReturn.GameOver =>
        match I.try_start_game (maker players2.users) with
        | (g4, some pt) => dispatchTurn I players2 info2 env fuel g4 pt
        | (g4, none) => StepRes.ok ⟨g4, false, none, players2, info2⟩
  | Event.PlayerMoveDropped => StepRes.ok st

/-- The end-of-iteration roster republish
(`controller_info.connected_users = players.iter()...`). -/
def updateRoster {G : Type} (st : CState G) : CState G :=
  { st with info := { st.info with connected_users := st.players.users } }

/-- Map the republish over a body outcome. -/
def finishStep {G : Type} : StepRes G → StepRes G
  | StepRes.ok st => StepRes.ok (updateRoster st)
  | r => r

/-- One controller loop iteration.  A move reply (or its channel dropping)
is only selected while a receiver is held; otherwise it is never observed
and the state is untouched. -/
def controllerStep {G S M : Type} (I : GameI G S M) (maker : List User → G) (env : Env)
    (fuel : Nat) (st : CState G) (ev : Event M) : StepRes G :=
  match ev with
  | Event.Move mov =>
    if st.p_move_rx then finishStep (stepBody I maker env fuel st (Event.Move mov))
    else StepRes.ok st
  | Event.PlayerMoveDropped =>
    if st.p_move_rx then finishStep (stepBody I maker env fuel st Event.PlayerMoveDropped)
    else StepRes.ok st
  | e => finishStep (stepBody I maker env fuel st e)

/-- The loop's initial state. -/
def initState {G : Type} (maker : List User → G) : CState G :=
  ⟨maker [], false, none, PlayerTable.new, defaultInfo⟩

/-- Run a list of events (each with its environment and dispatch fuel). -/
def runEvents {G S M : Type} (I : GameI G S M) (maker : List User → G) :
    CState G → List (Event M × Env × Nat) → StepRes G
  | st, [] => StepRes.ok st
  | st, (ev, env, fuel) :: rest =>
    match controllerStep I maker env fuel st ev with
    | StepRes.ok st2 => runEvents I maker st2 rest
    | r => r

end Ctrl

/-- The state the GoToMode-arm produces when entering Gating, roster
republish included. -/
def Ctrl.gatingReset {G : Type} (maker : List User → G) (st : Ctrl.CState G) : Ctrl.CState G :=
  Ctrl.updateRoster
    { st with info := { st.info with game_mode := Ctrl.GameMode.Gating, score := [] },
              game := maker [], p_move_rx := false }

/-- C1 (amended): processing ModeChange into Gating from any state empties
the score table, replaces the engine with a fresh `game_maker(vec![])`
instance and clears the pending-move receiver, so a move reply (or reply
drop) arriving after the transition is never observed and mutates nothing;
the turn-token variable, however, is NOT cleared: it retains its stale
value. -/
theorem controller_enter_gating (G S M : Type) (I : Ctrl.GameI G S M)
    (maker : List User → G) (env : Ctrl.Env) (fuel : Nat) (st : Ctrl.CState G) :
    Ctrl.controllerStep I maker env fuel st (Ctrl.Event.GoToMode Ctrl.GameMode.Gating) =
      Ctrl.StepRes.ok (Ctrl.gatingReset maker st) ∧
    (Ctrl.gatingReset maker st).info.score = [] ∧
    (Ctrl.gatingReset maker st).info.game_mode = Ctrl.GameMode.Gating ∧
    (Ctrl.gatingReset maker st).game = maker [] ∧
    (Ctrl.gatingReset maker st).p_move_rx = false ∧
    (Ctrl.gatingReset maker st).turn_token = st.turn_token ∧
    (Ctrl.gatingReset maker st).players = st.players ∧
    (∀ (mov : M) (env2 : Ctrl.Env) (fuel2 : Nat),
      Ctrl.controllerStep I maker env2 fuel2 (Ctrl.gatingReset maker st)
        (Ctrl.Event.Move mov) = Ctrl.StepRes.ok (Ctrl.gatingReset maker st)) ∧
    (∀ (env2 : Ctrl.Env) (fuel2 : Nat),
      Ctrl.controllerStep I maker env2 fuel2 (Ctrl.gatingReset maker st)
        Ctrl.Event.PlayerMoveDropped = Ctrl.StepRes.ok (Ctrl.gatingReset maker st)) := by
  refine ⟨?_, rfl, rfl, rfl, rfl, rfl, rfl, ?_, ?_⟩
  · simp [Ctrl.controllerStep, Ctrl.stepBody, Ctrl.finishStep, Ctrl.gatingReset]
  · intro mov env2 fuel2
    rfl
  · intro env2 fuel2
    rfl

/-- A trivial total engine used for concrete controller runs. -/
def trivEngine : Ctrl.GameI Unit Unit Unit :=
  ⟨fun g _ _ => (g, PlayerMoveResult.Draw), fun g _ => (g, none),
   fun g => (g, none), fun g _ => g, fun g _ => g⟩

/-- An environment where every channel send succeeds. -/
def envAll : Ctrl.Env := ⟨fun _ => true, fun _ => true, true⟩

/-- A state holding an outstanding pair for alice. -/
def stAliceTurn : Ctrl.CState Unit :=
  ⟨(), true, some ⟨⟨"alice", ⟨0, 0, 0⟩⟩⟩, PlayerTable.new, Ctrl.defaultInfo⟩

/-- Counterexample to C1 as stated: entering Gating clears only the
pending-move receiver; the turn token survives the transition. -/
theorem controller_enter_gating_keeps_token :
    ∃ st2, Ctrl.controllerStep trivEngine (fun _ => ()) envAll 1 stAliceTurn
        (Ctrl.Event.GoToMode Ctrl.GameMode.Gating) = Ctrl.StepRes.ok st2 ∧
      st2.turn_token = some ⟨⟨"alice", ⟨0, 0, 0⟩⟩⟩ ∧ ¬ st2.turn_token = none ∧
      st2.p_move_rx = false :=
  ⟨_, rfl, rfl, by decide, rfl⟩

/-- C2 (amended): while a turn is outstanding, a Disconnect for a
non-holder removes that name from the registry and notifies the engine via
`player_disconnected` exactly when the name was registered, and restores the
outstanding token untouched; with no outstanding turn, however, the
Disconnect arm does nothing at all — the registry keeps the entry and the
engine is never notified. -/
theorem controller_disconnect_non_holder (G S M : Type) (I : Ctrl.GameI G S M)
    (maker : List User → G) (env : Ctrl.Env) (fuel : Nat) (st : Ctrl.CState G)
    (name : String) :
    (∀ t, st.turn_token = some t → t.user.name ≠ name →
      Ctrl.controllerStep I maker env fuel st (Ctrl.Event.ImDisconnected name) =
        Ctrl.StepRes.ok (Ctrl.updateRoster
          { st with
            game := if (st.players.removePlayer name).2 then
                I.player_disconnected st.game name
              else st.game,
            players := (st.players.removePlayer name).1,
            turn_token := some t })) ∧
    (st.turn_token = none →
      Ctrl.controllerStep I maker env fuel st (Ctrl.Event.ImDisconnected name) =
        Ctrl.StepRes.ok (Ctrl.updateRoster st)) := by
  constructor
  · intro t htok hne
    simp only [Ctrl.controllerStep, Ctrl.stepBody, htok, Ctrl.finishStep]
    rw [if_neg hne]
  · intro htok
    simp only [Ctrl.controllerStep, Ctrl.stepBody, htok, Ctrl.finishStep]

/-- An engine over `List String` that records `player_disconnected` calls. -/
def recEngine : Ctrl.GameI (List String) Unit Unit :=
  ⟨fun g _ _ => (g, PlayerMoveResult.Draw), fun g _ => (g, none),
   fun g => (g, none), fun g _ => g, fun g n => g ++ [n]⟩

/-- A state with bob registered and no outstanding turn. -/
def stBobIdle : Ctrl.CState (List String) :=
  ⟨[], false, none, (PlayerTable.new.addNewPlayer "bob").1, Ctrl.defaultInfo⟩

/-- Counterexample to C2 as stated: with no turn outstanding, Disconnect
leaves bob registered and never calls `player_disconnected`. -/
theorem controller_disconnect_without_turn_noop :
    ∃ st2, Ctrl.controllerStep recEngine (fun _ => []) envAll 1 stBobIdle
        (Ctrl.Event.ImDisconnected "bob") = Ctrl.StepRes.ok st2 ∧
      st2.players.players.map PlayerInfo.name = ["bob"] ∧ st2.game = [] :=
  ⟨_, rfl, rfl, rfl⟩

/-- Witness for C2 (amended), at a state where carol holds the turn and bob
disconnects: bob leaves the registry, the engine records the notification,
and carol's token survives. -/
theorem controller_disconnect_non_holder_witness :
    Ctrl.controllerStep recEngine (fun _ => []) envAll 1
        ⟨[], true, some ⟨⟨"carol", ⟨1, 1, 1⟩⟩⟩, (PlayerTable.new.addNewPlayer "bob").1,
          Ctrl.defaultInfo⟩
        (Ctrl.Event.ImDisconnected "bob") =
      Ctrl.StepRes.ok (Ctrl.updateRoster
        { (⟨[], true, some ⟨⟨"carol", ⟨1, 1, 1⟩⟩⟩, (PlayerTable.new.addNewPlayer "bob").1,
            Ctrl.defaultInfo⟩ : Ctrl.CState (List String)) with
          game := if (((PlayerTable.new.addNewPlayer "bob").1).removePlayer "bob").2 then
              recEngine.player_disconnected [] "bob"
            else [],
          players := (((PlayerTable.new.addNewPlayer "bob").1).removePlayer "bob").1,
          turn_token := some ⟨⟨"carol", ⟨1, 1, 1⟩⟩⟩ }) :=
  (controller_disconnect_non_holder (List String) Unit Unit recEngine (fun _ => []) envAll 1
      ⟨[], true, some ⟨⟨"carol", ⟨1, 1, 1⟩⟩⟩, (PlayerTable.new.addNewPlayer "bob").1,
        Ctrl.defaultInfo⟩ "bob").1
    ⟨⟨"carol", ⟨1, 1, 1⟩⟩⟩ rfl (by decide)

/-- An engine rejecting every move with `InvalidMove(None)`. -/
def invEngine : Ctrl.GameI Unit Unit Unit :=
  ⟨fun g _ _ => (g, PlayerMoveResult.InvalidMove none), fun g _ => (g, none),
   fun g => (g, none), fun g _ => g, fun g _ => g⟩

/-- An environment whose one-shot error channel receiver has been dropped. -/
def envErrDown : Ctrl.Env := ⟨fun _ => true, fun _ => true, false⟩

/-- C3: the rejection reply is NOT best-effort.  `react_to_player_move`
unwraps `move_err_tx.send(...)`, so when the offender's one-shot error
channel is gone the whole controller loop panics: alice holds the turn,
submits a move the engine rejects, her error receiver is dropped, and the
step panics instead of continuing. -/
theorem controller_err_send_unwrap_panics :
    Ctrl.controllerStep invEngine (fun _ => ()) envErrDown 1 stAliceTurn
      (Ctrl.Event.Move ()) = Ctrl.StepRes.panicked := rfl

namespace Ctrl

theorem scoreOf_addPlayerWin_self (s : List (String × Nat)) (n : String) :
    scoreOf (addPlayerWin s n) n = scoreOf s n + 1 := by
  induction s with
  | nil => simp [addPlayerWin, scoreOf]
  | cons kv rest ih =>
    obtain ⟨k, v⟩ := kv
    by_cases hk : k = n
    · subst hk
      simp [addPlayerWin, scoreOf]
    · simp [addPlayerWin, scoreOf, hk, ih]

theorem scoreOf_addPlayerWin_other (s : List (String × Nat)) (n m : String) (h : m ≠ n) :
    scoreOf (addPlayerWin s n) m = scoreOf s m := by
  induction s with
  | nil => simp [addPlayerWin, scoreOf, Ne.symm h]
  | cons kv rest ih =>
    obtain ⟨k, v⟩ := kv
    by_cases hk : k = n
    · subst hk
      have hkm : ¬ k = m := fun hc => h hc.symm
      simp [addPlayerWin, scoreOf, hkm]
    · by_cases hkm : k = m
      · subst hkm
        simp [addPlayerWin, scoreOf, hk]
      · simp [addPlayerWin, scoreOf, hk, hkm, ih]

/-- A name is registered: some entry carries it. -/
def registered (t : PlayerTable) (n : String) : Prop :=
  ∃ p ∈ t.players, p.name = n

theorem get_some_registered {t : PlayerTable} {n : String} {p : PlayerInfo}
    (h : t.get n = some p) : registered t n := by
  unfold PlayerTable.get at h
  have hmem := List.mem_of_find?_eq_some h
  have hname := List.find?_some h
  simp at hname
  exact ⟨p, hmem, hname⟩

theorem yourTurn_done_some_registered {G S M : Type} {I : GameI G S M}
    {players : PlayerTable} {info : ControllerInfo} {env : Env} :
    ∀ {fuel i : Nat} {g : G} {tok : TurnToken} {s : S} {g2 : G} {tok2 : TurnToken},
      yourTurn I players info env fuel i g tok s = YtRes.done g2 (some tok2) →
      registered players tok2.user.name := by
  intro fuel
  induction fuel with
  | zero =>
    intro i g tok s g2 tok2 h
    simp [yourTurn] at h
  | succ n ih =>
    intro i g tok s g2 tok2 h
    simp only [yourTurn] at h
    by_cases hg : info.game_mode = GameMode.Gating
    · rw [if_pos hg] at h
      injection h with _ h2
      exact Option.noConfusion h2
    · rw [if_neg hg] at h
      rcases hget : players.get tok.user.name with _ | p
      · simp only [hget] at h
        exact YtRes.noConfusion h
      · simp only [hget] at h
        by_cases hs : env.yourTurnSendOk i
        · rw [if_pos hs] at h
          injection h with _ h2
          injection h2 with h2
          subst h2
          exact get_some_registered hget
        · rw [if_neg hs] at h
          rcases hcd : I.current_player_disconnected g tok with ⟨g3, _ | pt2⟩
          · simp only [hcd] at h
            injection h with _ h2
            exact Option.noConfusion h2
          · simp only [hcd] at h
            exact ih h

theorem dispatchTurn_ok_inv {G S M : Type} {I : GameI G S M} {players : PlayerTable}
    {info : ControllerInfo} {env : Env} {fuel : Nat} {g : G} {pt : PlayerTurn S}
    {st2 : CState G} (h : dispatchTurn I players info env fuel g pt = StepRes.ok st2) :
    st2.info = info ∧ st2.players = players ∧
    (st2.p_move_rx = true →
      ∃ tok, st2.turn_token = some tok ∧ registered players tok.user.name) := by
  rcases hyt : yourTurn I players info env fuel 0 g pt.token pt.state
    with _ | _ | ⟨g2, _ | tok⟩
  · simp only [dispatchTurn, hyt] at h
    exact StepRes.noConfusion h
  · simp only [dispatchTurn, hyt] at h
    exact StepRes.noConfusion h
  · simp only [dispatchTurn, hyt] at h
    injection h with h
    subst h
    exact ⟨rfl, rfl, by simp⟩
  · simp only [dispatchTurn, hyt] at h
    injection h with h
    subst h
    exact ⟨rfl, rfl, fun _ => ⟨tok, rfl, yourTurn_done_some_registered hyt⟩⟩

theorem reactToPlayerMove_ok_inv {G S M : Type} {I : GameI G S M} {env : Env}
    {fuel : Nat} {who : String} {res : PlayerMoveResult S} {g : G}
    {info : ControllerInfo} {players : PlayerTable} {g2 : G} {info2 : ControllerInfo}
    {players2 : PlayerTable} {ret : PlayerMovesReturn}
    (h : reactToPlayerMove I env fuel who res g info players =
      ReactRes.ok g2 info2 players2 ret) :
    (res = PlayerMoveResult.Win → info2.score = addPlayerWin info.score who) ∧
    (res ≠ PlayerMoveResult.Win → info2.score = info.score) ∧
    (∀ tok, ret = PlayerMovesReturn.Next tok →
      players2 = players ∧ registered players tok.user.name) := by
  cases res with
  | Ok pt =>
    rcases hyt : yourTurn I players info env fuel 0 g pt.token pt.state
      with _ | _ | ⟨g3, _ | tok3⟩
    · simp only [reactToPlayerMove, ytToReact, hyt] at h
      exact ReactRes.noConfusion h
    · simp only [reactToPlayerMove, ytToReact, hyt] at h
      exact ReactRes.noConfusion h
    · simp only [reactToPlayerMove, ytToReact, hyt] at h
      injection h with h1 h2 h3 h4
      subst h2
      subst h3
      subst h4
      refine ⟨fun hc => PlayerMoveResult.noConfusion hc, fun _ => rfl, ?_⟩
      intro tok hc
      exact PlayerMovesReturn.noConfusion hc
    · simp only [reactToPlayerMove, ytToReact, hyt] at h
      injection h with h1 h2 h3 h4
      subst h2
      subst h3
      subst h4
      refine ⟨fun hc => PlayerMoveResult.noConfusion hc, fun _ => rfl, ?_⟩
      intro tok hc
      injection hc with hc
      subst hc
      exact ⟨rfl, yourTurn_done_some_registered hyt⟩
  | Draw =>
    simp only [reactToPlayerMove] at h
    injection h with h1 h2 h3 h4
    subst h2
    subst h3
    subst h4
    refine ⟨fun hc => PlayerMoveResult.noConfusion hc, fun _ => rfl, ?_⟩
    intro tok hc
    exact PlayerMovesReturn.noConfusion hc
  | Win =>
    simp only [reactToPlayerMove] at h
    injection h with h1 h2 h3 h4
    subst h2
    subst h3
    subst h4
    refine ⟨fun _ => rfl, fun hc => absurd rfl hc, ?_⟩
    intro tok hc
    exact PlayerMovesReturn.noConfusion hc
  | InvalidMove maybe =>
    by_cases he : env.errSendOk
    · cases maybe with
      | none =>
        simp only [reactToPlayerMove, he, if_true] at h
        injection h with h1 h2 h3 h4
        subst h2
        subst h3
        subst h4
        refine ⟨fun hc => PlayerMoveResult.noConfusion hc, fun _ => rfl, ?_⟩
        intro tok hc
        exact PlayerMovesReturn.noConfusion hc
      | some pt =>
        rcases hyt : yourTurn I players info env fuel 0 g pt.token pt.state
          with _ | _ | ⟨g3, _ | tok3⟩
        · simp only [reactToPlayerMove, he, if_true, ytToReact, hyt] at h
          exact ReactRes.noConfusion h
        · simp only [reactToPlayerMove, he, if_true, ytToReact, hyt] at h
          exact ReactRes.noConfusion h
        · simp only [reactToPlayerMove, he, if_true, ytToReact, hyt] at h
          injection h with h1 h2 h3 h4
          subst h2
          subst h3
          subst h4
          refine ⟨fun hc => PlayerMoveResult.noConfusion hc, fun _ => rfl, ?_⟩
          intro tok hc
          exact PlayerMovesReturn.noConfusion hc
        · simp only [reactToPlayerMove, he, if_true, ytToReact, hyt] at h
          injection h with h1 h2 h3 h4
          subst h2
          subst h3
          subst h4
          refine ⟨fun hc => PlayerMoveResult.noConfusion hc, fun _ => rfl, ?_⟩
          intro tok hc
          injection hc with hc
          subst hc
          exact ⟨rfl, yourTurn_done_some_registered hyt⟩
    · simp only [reactToPlayerMove] at h
      rw [if_neg he] at h
      exact ReactRes.noConfusion h
  | InvalidFormat maybe =>
    by_cases he : env.errSendOk
    · cases maybe with
      | none =>
        simp only [reactToPlayerMove, he, if_true] at h
        injection h with h1 h2 h3 h4
        subst h2
        subst h3
        subst h4
        refine ⟨fun hc => PlayerMoveResult.noConfusion hc, fun _ => rfl, ?_⟩
        intro tok hc
        exact PlayerMovesReturn.noConfusion hc
      | some pt =>
        rcases hyt : yourTurn I players info env fuel 0 g pt.token pt.state
          with _ | _ | ⟨g3, _ | tok3⟩
        · simp only [reactToPlayerMove, he, if_true, ytToReact, hyt] at h
          exact ReactRes.noConfusion h
        · simp only [reactToPlayerMove, he, if_true, ytToReact, hyt] at h
          exact ReactRes.noConfusion h
        · simp only [reactToPlayerMove, he, if_true, ytToReact, hyt] at h
          injection h with h1 h2 h3 h4
          subst h2
          subst h3
          subst h4
          refine ⟨fun hc => PlayerMoveResult.noConfusion hc, fun _ => rfl, ?_⟩
          intro tok hc
          exact PlayerMovesReturn.noConfusion hc
        · simp only [reactToPlayerMove, he, if_true, ytToReact, hyt] at h
          injection h with h1 h2 h3 h4
          subst h2
          subst h3
          subst h4
          refine ⟨fun hc => PlayerMoveResult.noConfusion hc, fun _ => rfl, ?_⟩
          intro tok hc
          injection hc with hc
          subst hc
          exact ⟨rfl, yourTurn_done_some_registered hyt⟩
    · simp only [reactToPlayerMove] at h
      rw [if_neg he] at h
      exact ReactRes.noConfusion h

end Ctrl

/-- C6 (amended): the score table changes in exactly two ways — the mover's
count increases by one whenever the engine reports Win for their move, in
EVERY mode (the code never consults the mode here), and the whole table is
cleared on entering Gating; every other processed event, Draw outcomes
included, leaves every score unchanged (a move reply arriving with no
receiver held is never observed and changes nothing at all). -/
theorem controller_score_frame (G S M : Type) (I : Ctrl.GameI G S M) (maker : List User → G)
    (env : Ctrl.Env) (fuel : Nat) (st st2 : Ctrl.CState G) (ev : Ctrl.Event M)
    (h : Ctrl.controllerStep I maker env fuel st ev = Ctrl.StepRes.ok st2) :
    (ev = Ctrl.Event.GoToMode Ctrl.GameMode.Gating → st2.info.score = []) ∧
    (∀ mov, ev = Ctrl.Event.Move mov → st.p_move_rx = true → ∀ t, st.turn_token = some t →
      (((I.player_moves st.game t mov).2 = PlayerMoveResult.Win →
        Ctrl.scoreOf st2.info.score t.user.name =
          Ctrl.scoreOf st.info.score t.user.name + 1 ∧
        ∀ n, n ≠ t.user.name →
          Ctrl.scoreOf st2.info.score n = Ctrl.scoreOf st.info.score n) ∧
       ((I.player_moves st.game t mov).2 ≠ PlayerMoveResult.Win →
        st2.info.score = st.info.score))) ∧
    ((∀ mov, ev ≠ Ctrl.Event.Move mov) → ev ≠ Ctrl.Event.GoToMode Ctrl.GameMode.Gating →
      st2.info.score = st.info.score) ∧
    (∀ mov, ev = Ctrl.Event.Move mov → st.p_move_rx = false → st2 = st) := by
  cases ev with
  | ImConnected name =>
    refine ⟨fun hc => by simp at hc, fun mov hc => by simp at hc, fun _ _ => ?_,
      fun mov hc => by simp at hc⟩
    simp only [Ctrl.controllerStep, Ctrl.stepBody] at h
    cases hrx : st.p_move_rx with
    | true =>
      simp only [hrx, if_true, Ctrl.finishStep] at h
      injection h with h
      subst h
      rfl
    | false =>
      simp only [hrx, Bool.false_eq_true, if_false] at h
      rcases hts : I.try_start_game (I.player_connected st.game
          (Ctrl.playerInfoToUser (st.players.addNewPlayer name).2)) with ⟨g2, _ | pt⟩
      · simp only [hts, Ctrl.finishStep] at h
        injection h with h
        subst h
        rfl
      · simp only [hts] at h
        rcases hdt : Ctrl.dispatchTurn I (st.players.addNewPlayer name).1 st.info env fuel g2 pt
          with _ | _ | st3
        · rw [hdt] at h
          exact Ctrl.StepRes.noConfusion h
        · rw [hdt] at h
          exact Ctrl.StepRes.noConfusion h
        · rw [hdt] at h
          simp only [Ctrl.finishStep] at h
          injection h with h
          subst h
          have hinv := Ctrl.dispatchTurn_ok_inv hdt
          show st3.info.score = st.info.score
          rw [hinv.1]
  | ImDisconnected name =>
    refine ⟨fun hc => by simp at hc, fun mov hc => by simp at hc, fun _ _ => ?_,
      fun mov hc => by simp at hc⟩
    simp only [Ctrl.controllerStep, Ctrl.stepBody] at h
    rcases htok : st.turn_token with _ | token
    · simp only [htok, Ctrl.finishStep] at h
      injection h with h
      subst h
      rfl
    · simp only [htok] at h
      by_cases hn : token.user.name = name
      · rw [if_pos hn] at h
        rcases hcd : I.current_player_disconnected st.game token with ⟨g1, _ | pt⟩
        · simp only [hcd, Ctrl.finishStep] at h
          injection h with h
          subst h
          rfl
        · simp only [hcd] at h
          rcases hdt : Ctrl.dispatchTurn I st.players st.info env fuel g1 pt with _ | _ | st3
          · rw [hdt] at h
            exact Ctrl.StepRes.noConfusion h
          · rw [hdt] at h
            exact Ctrl.StepRes.noConfusion h
          · rw [hdt] at h
            simp only [Ctrl.finishStep] at h
            injection h with h
            subst h
            have hinv := Ctrl.dispatchTurn_ok_inv hdt
            show st3.info.score = st.info.score
            rw [hinv.1]
      · rw [if_neg hn] at h
        simp only [Ctrl.finishStep] at h
        injection h with h
        subst h
        rfl
  | GoToMode m =>
    by_cases hm : m = Ctrl.GameMode.Gating
    · subst hm
      refine ⟨fun _ => ?_, fun mov hc => by simp at hc, fun _ hc => absurd rfl hc,
        fun mov hc => by simp at hc⟩
      simp only [Ctrl.controllerStep, Ctrl.stepBody, Ctrl.finishStep] at h
      simp at h
      rw [← h]
      rfl
    · refine ⟨fun hc => by injection hc with hc; exact absurd hc hm,
        fun mov hc => by simp at hc, fun _ _ => ?_, fun mov hc => by simp at hc⟩
      simp only [Ctrl.controllerStep, Ctrl.stepBody] at h
      by_cases hog : st.info.game_mode = Ctrl.GameMode.Gating ∧ ¬ m = Ctrl.GameMode.Gating
      · rw [if_pos hog] at h
        rcases hts : I.try_start_game st.game with ⟨g2, _ | pt⟩
        · simp only [hts, Ctrl.finishStep] at h
          injection h with h
          subst h
          rfl
        · simp only [hts] at h
          rcases hdt : Ctrl.dispatchTurn I st.players
              { st.info with game_mode := m } env fuel g2 pt with _ | _ | st3
          · rw [hdt] at h
            exact Ctrl.StepRes.noConfusion h
          · rw [hdt] at h
            exact Ctrl.StepRes.noConfusion h
          · rw [hdt] at h
            simp only [Ctrl.finishStep] at h
            injection h with h
            subst h
            have hinv := Ctrl.dispatchTurn_ok_inv hdt
            show st3.info.score = st.info.score
            rw [hinv.1]
      · rw [if_neg hog] at h
        rw [if_neg hm] at h
        simp only [Ctrl.finishStep] at h
        injection h with h
        subst h
        rfl
  | ResetGame =>
    refine ⟨fun hc => by simp at hc, fun mov hc => by simp at hc, fun _ _ => ?_,
      fun mov hc => by simp at hc⟩
    simp only [Ctrl.controllerStep, Ctrl.stepBody, Ctrl.finishStep] at h
    injection h with h
    subst h
    rfl
  | SetTurnDelay d =>
    refine ⟨fun hc => by simp at hc, fun mov hc => by simp at hc, fun _ _ => ?_,
      fun mov hc => by simp at hc⟩
    simp only [Ctrl.controllerStep, Ctrl.stepBody, Ctrl.finishStep] at h
    injection h with h
    subst h
    rfl
  | SetWinDelay d =>
    refine ⟨fun hc => by simp at hc, fun mov hc => by simp at hc, fun _ _ => ?_,
      fun mov hc => by simp at hc⟩
    simp only [Ctrl.controllerStep, Ctrl.stepBody, Ctrl.finishStep] at h
    injection h with h
    subst h
    rfl
  | PlayerMoveDropped =>
    refine ⟨fun hc => by simp at hc, fun mov hc => by simp at hc, fun _ _ => ?_,
      fun mov hc => by simp at hc⟩
    simp only [Ctrl.controllerStep] at h
    cases hrx : st.p_move_rx with
    | true =>
      simp only [hrx, if_true, Ctrl.stepBody, Ctrl.finishStep] at h
      injection h with h
      subst h
      rfl
    | false =>
      simp only [hrx, Bool.false_eq_true, if_false] at h
      injection h with h
      subst h
      rfl
  | Move mov =>
    cases hrx : st.p_move_rx with
    | false =>
      simp only [Ctrl.controllerStep, hrx, Bool.false_eq_true, if_false] at h
      injection h with h
      subst h
      refine ⟨fun hc => by simp at hc, ?_, fun hall _ => absurd rfl (hall mov), fun _ _ _ => rfl⟩
      intro mov2 _ hrx2
      exact Bool.noConfusion hrx2
    | true =>
      refine ⟨fun hc => by simp at hc, ?_, fun hall _ => absurd rfl (hall mov), ?_⟩
      · intro mov2 hev hrx2 t htok
        injection hev with hev
        subst hev
        simp only [Ctrl.controllerStep, hrx, if_true, Ctrl.stepBody, htok] at h
        rcases hre : Ctrl.reactToPlayerMove I env fuel t.user.name
            (I.player_moves st.game t mov).2 (I.player_moves st.game t mov).1
            st.info st.players with _ | _ | ⟨g2, info2, players2, ret⟩
        · rw [hre] at h
          exact Ctrl.StepRes.noConfusion h
        · rw [hre] at h
          exact Ctrl.StepRes.noConfusion h
        · rw [hre] at h
          have hscore2 : st2.info.score = info2.score := by
            cases ret with
            | None =>
              simp only [Ctrl.finishStep] at h
              injection h with h
              subst h
              rfl
            | Next tok =>
              simp only [Ctrl.finishStep] at h
              injection h with h
              subst h
              rfl
            | GameOver =>
              rcases hts : I.try_start_game (maker players2.users) with ⟨g4, _ | pt⟩
              · simp only [hts, Ctrl.finishStep] at h
                injection h with h
                subst h
                rfl
              · simp only [hts] at h
                rcases hdt : Ctrl.dispatchTurn I players2 info2 env fuel g4 pt
                  with _ | _ | st3
                · rw [hdt] at h
                  exact Ctrl.StepRes.noConfusion h
                · rw [hdt] at h
                  exact Ctrl.StepRes.noConfusion h
                · rw [hdt] at h
                  simp only [Ctrl.finishStep] at h
                  injection h with h
                  subst h
                  have hinv := Ctrl.dispatchTurn_ok_inv hdt
                  show st3.info.score = info2.score
                  rw [hinv.1]
          have hri := Ctrl.reactToPlayerMove_ok_inv hre
          constructor
          · intro hwin
            have hsc : info2.score = Ctrl.addPlayerWin st.info.score t.user.name :=
              hri.1 hwin
            rw [hscore2, hsc]
            exact ⟨Ctrl.scoreOf_addPlayerWin_self _ _,
              fun n hn => Ctrl.scoreOf_addPlayerWin_other _ _ _ hn⟩
          · intro hnw
            rw [hscore2, hri.2.1 hnw]
      · intro mov2 _ hrx2
        exact Bool.noConfusion hrx2

/-- Witness for C6 at a concrete Gating transition. -/
theorem controller_score_frame_witness :
    (Ctrl.gatingReset (fun _ => ()) stAliceTurn).info.score = [] :=
  (controller_score_frame Unit Unit Unit trivEngine (fun _ => ()) envAll 1 stAliceTurn
    (Ctrl.gatingReset (fun _ => ()) stAliceTurn)
    (Ctrl.Event.GoToMode Ctrl.GameMode.Gating) (by decide)).1 rfl

/-- An engine declaring every move a win. -/
def winEngine : Ctrl.GameI Unit Unit Unit :=
  ⟨fun g _ _ => (g, PlayerMoveResult.Win), fun g _ => (g, none),
   fun g => (g, none), fun g _ => g, fun g _ => g⟩

/-- Counterexample to C6 as stated: a Win in Practice mode — score counting
supposedly disabled — still increments the winner's score. -/
theorem controller_practice_win_scores :
    ∃ st2, Ctrl.controllerStep winEngine (fun _ => ()) envAll 1 stAliceTurn
        (Ctrl.Event.Move ()) = Ctrl.StepRes.ok st2 ∧
      stAliceTurn.info.game_mode = Ctrl.GameMode.Practice ∧
      Ctrl.scoreOf stAliceTurn.info.score "alice" = 0 ∧
      Ctrl.scoreOf st2.info.score "alice" = 1 :=
  ⟨_, rfl, rfl, rfl, by decide⟩

namespace Ctrl

theorem removeFold_players (name : String) :
    ∀ (l : List PlayerInfo) (i cur : Nat),
      (removeFold name l i cur).1 = l.filter (fun p => p.name ≠ name) := by
  intro l
  induction l with
  | nil => intro i cur; simp [removeFold]
  | cons p rest ih =>
    intro i cur
    by_cases hp : p.name = name
    · simp [removeFold, hp, ih]
    · simp [removeFold, hp, ih]

theorem registered_removePlayer_other {t : PlayerTable} {name n : String}
    (hne : n ≠ name) (h : registered t n) : registered (t.removePlayer name).1 n := by
  obtain ⟨p, hp, hpn⟩ := h
  refine ⟨p, ?_, hpn⟩
  show p ∈ (removeFold name t.players 0 t.current_index).1
  rw [removeFold_players]
  rw [List.mem_filter]
  refine ⟨hp, ?_⟩
  simp [hpn, hne]

theorem registered_addNewPlayer {t : PlayerTable} {n : String} (nm : String)
    (h : registered t n) : registered (t.addNewPlayer nm).1 n := by
  by_cases he : n = nm
  · subst he
    exact ⟨(t.addNewPlayer n).2, by simp [PlayerTable.addNewPlayer], rfl⟩
  · obtain ⟨p, hp, hpn⟩ := registered_removePlayer_other he h
    exact ⟨p, by simp [PlayerTable.addNewPlayer]; exact Or.inl hp, hpn⟩

/-- The outstanding-pair invariant: while a pending-move receiver is held,
the turn token exists and its user is registered. -/
def Inv {G : Type} (st : CState G) : Prop :=
  st.p_move_rx = true →
    ∃ t, st.turn_token = some t ∧ registered st.players t.user.name

theorem dispatchTurn_ok_Inv {G S M : Type} {I : GameI G S M} {players : PlayerTable}
    {info : ControllerInfo} {env : Env} {fuel : Nat} {g : G} {pt : PlayerTurn S}
    {st2 : CState G} (h : dispatchTurn I players info env fuel g pt = StepRes.ok st2) :
    Inv st2 := by
  intro hrx
  obtain ⟨hinfo, hpl, hreg⟩ := dispatchTurn_ok_inv h
  obtain ⟨tok, htok, hr⟩ := hreg hrx
  exact ⟨tok, htok, hpl ▸ hr⟩

theorem controller_step_Inv {G S M : Type} {I : GameI G S M} {maker : List User → G}
    {env : Env} {fuel : Nat} {st st2 : CState G} {ev : Event M}
    (hInv : Inv st) (h : controllerStep I maker env fuel st ev = StepRes.ok st2) :
    Inv st2 := by
  cases ev with
  | ImConnected name =>
    simp only [controllerStep, stepBody] at h
    cases hrx : st.p_move_rx with
    | true =>
      simp only [hrx, if_true, finishStep] at h
      injection h with h
      subst h
      intro _
      obtain ⟨t, htok, hreg⟩ := hInv hrx
      exact ⟨t, htok, registered_addNewPlayer name hreg⟩
    | false =>
      simp only [hrx, Bool.false_eq_true, if_false] at h
      rcases hts : I.try_start_game (I.player_connected st.game
          (playerInfoToUser (st.players.addNewPlayer name).2)) with ⟨g2, _ | pt⟩
      · simp only [hts, finishStep] at h
        injection h with h
        subst h
        intro hc
        exact Bool.noConfusion hc
      · simp only [hts] at h
        rcases hdt : dispatchTurn I (st.players.addNewPlayer name).1 st.info env fuel g2 pt
          with _ | _ | st3
        · rw [hdt] at h
          exact StepRes.noConfusion h
        · rw [hdt] at h
          exact StepRes.noConfusion h
        · rw [hdt] at h
          simp only [finishStep] at h
          injection h with h
          subst h
          have hI : Inv st3 := dispatchTurn_ok_Inv hdt
          exact hI
  | ImDisconnected name =>
    simp only [controllerStep, stepBody] at h
    rcases htok : st.turn_token with _ | token
    · simp only [htok, finishStep] at h
      injection h with h
      subst h
      intro hrx
      obtain ⟨t, ht, hreg⟩ := hInv hrx
      rw [htok] at ht
      exact Option.noConfusion ht
    · simp only [htok] at h
      by_cases hn : token.user.name = name
      · rw [if_pos hn] at h
        rcases hcd : I.current_player_disconnected st.game token with ⟨g1, _ | pt⟩
        · simp only [hcd, finishStep] at h
          injection h with h
          subst h
          intro hc
          exact Bool.noConfusion hc
        · simp only [hcd] at h
          rcases hdt : dispatchTurn I st.players st.info env fuel g1 pt with _ | _ | st3
          · rw [hdt] at h
            exact StepRes.noConfusion h
          · rw [hdt] at h
            exact StepRes.noConfusion h
          · rw [hdt] at h
            simp only [finishStep] at h
            injection h with h
            subst h
            have hI : Inv st3 := dispatchTurn_ok_Inv hdt
            exact hI
      · rw [if_neg hn] at h
        simp only [finishStep] at h
        injection h with h
        subst h
        intro hrx
        obtain ⟨t, ht, hreg⟩ := hInv hrx
        rw [htok] at ht
        injection ht with ht
        subst ht
        exact ⟨token, rfl, registered_removePlayer_other hn hreg⟩
  | GoToMode m =>
    simp only [controllerStep, stepBody] at h
    by_cases hog : st.info.game_mode = GameMode.Gating ∧ ¬ m = GameMode.Gating
    · rw [if_pos hog] at h
      rcases hts : I.try_start_game st.game with ⟨g2, _ | pt⟩
      · simp only [hts, finishStep] at h
        injection h with h
        subst h
        intro hrx
        obtain ⟨t, ht, hreg⟩ := hInv hrx
        exact ⟨t, ht, hreg⟩
      · simp only [hts] at h
        rcases hdt : dispatchTurn I st.players { st.info with game_mode := m } env fuel g2 pt
          with _ | _ | st3
        · rw [hdt] at h
          exact StepRes.noConfusion h
        · rw [hdt] at h
          exact StepRes.noConfusion h
        · rw [hdt] at h
          simp only [finishStep] at h
          injection h with h
          subst h
          have hI : Inv st3 := dispatchTurn_ok_Inv hdt
          exact hI
    · rw [if_neg hog] at h
      by_cases hm : m = GameMode.Gating
      · rw [if_pos hm] at h
        simp only [finishStep] at h
        injection h with h
        subst h
        intro hc
        exact Bool.noConfusion hc
      · rw [if_neg hm] at h
        simp only [finishStep] at h
        injection h with h
        subst h
        intro hrx
        obtain ⟨t, ht, hreg⟩ := hInv hrx
        exact ⟨t, ht, hreg⟩
  | ResetGame =>
    simp only [controllerStep, stepBody, finishStep] at h
    injection h with h
    subst h
    intro hrx
    obtain ⟨t, ht, hreg⟩ := hInv hrx
    exact ⟨t, ht, hreg⟩
  | SetTurnDelay d =>
    simp only [controllerStep, stepBody, finishStep] at h
    injection h with h
    subst h
    intro hrx
    obtain ⟨t, ht, hreg⟩ := hInv hrx
    exact ⟨t, ht, hreg⟩
  | SetWinDelay d =>
    simp only [controllerStep, stepBody, finishStep] at h
    injection h with h
    subst h
    intro hrx
    obtain ⟨t, ht, hreg⟩ := hInv hrx
    exact ⟨t, ht, hreg⟩
  | PlayerMoveDropped =>
    simp only [controllerStep] at h
    cases hrx : st.p_move_rx with
    | true =>
      simp only [hrx, if_true, stepBody, finishStep] at h
      injection h with h
      subst h
      intro _
      obtain ⟨t, ht, hreg⟩ := hInv hrx
      exact ⟨t, ht, hreg⟩
    | false =>
      simp only [hrx, Bool.false_eq_true, if_false] at h
      injection h with h
      subst h
      exact hInv
  | Move mov =>
    simp only [controllerStep] at h
    cases hrx : st.p_move_rx with
    | false =>
      simp only [hrx, Bool.false_eq_true, if_false] at h
      injection h with h
      subst h
      exact hInv
    | true =>
      simp only [hrx, if_true, stepBody] at h
      rcases htok : st.turn_token with _ | token
      · rw [htok] at h
        exact StepRes.noConfusion h
      · simp only [htok] at h
        rcases hre : reactToPlayerMove I env fuel token.user.name
            (I.player_moves st.game token mov).2 (I.player_moves st.game token mov).1
            st.info st.players with _ | _ | ⟨g2, info2, players2, ret⟩
        · rw [hre] at h
          exact StepRes.noConfusion h
        · rw [hre] at h
          exact StepRes.noConfusion h
        · rw [hre] at h
          have hri := reactToPlayerMove_ok_inv hre
          cases ret with
          | None =>
            simp only [finishStep] at h
            injection h with h
            subst h
            intro hc
            exact Bool.noConfusion hc
          | Next tok =>
            simp only [finishStep] at h
            injection h with h
            subst h
            intro _
            obtain ⟨hpl, hreg⟩ := hri.2.2 tok rfl
            refine ⟨tok, rfl, ?_⟩
            show registered players2 tok.user.name
            rw [hpl]
            exact hreg
          | GameOver =>
            rcases hts : I.try_start_game (maker players2.users) with ⟨g4, _ | pt⟩
            · simp only [hts, finishStep] at h
              injection h with h
              subst h
              intro hc
              exact Bool.noConfusion hc
            · simp only [hts] at h
              rcases hdt : dispatchTurn I players2 info2 env fuel g4 pt with _ | _ | st3
              · rw [hdt] at h
                exact StepRes.noConfusion h
              · rw [hdt] at h
                exact StepRes.noConfusion h
              · rw [hdt] at h
                simp only [finishStep] at h
                injection h with h
                subst h
                have hI : Inv st3 := dispatchTurn_ok_Inv hdt
                exact hI

theorem runEvents_Inv {G S M : Type} {I : GameI G S M} {maker : List User → G} :
    ∀ (trace : List (Event M × Env × Nat)) (st st2 : CState G),
      Inv st → runEvents I maker st trace = StepRes.ok st2 → Inv st2 := by
  intro trace
  induction trace with
  | nil =>
    intro st st2 hInv h
    simp only [runEvents] at h
    injection h with h
    subst h
    exact hInv
  | cons item rest ih =>
    intro st st2 hInv h
    obtain ⟨ev, env, fuel⟩ := item
    simp only [runEvents] at h
    rcases hs : controllerStep I maker env fuel st ev with _ | _ | st3
    · rw [hs] at h
      exact StepRes.noConfusion h
    · rw [hs] at h
      exact StepRes.noConfusion h
    · rw [hs] at h
      exact ih st3 st2 (controller_step_Inv hInv hs) h

end Ctrl

/-- C5: whenever the controller holds an outstanding
(pending-move-receiver, turn-token) pair — in any state reachable from the
initial state by any event trace — the token exists, is unique, and names a
currently registered player; moreover on a Connect that makes
`try_start_game` yield a turn, if every dispatch send is delivered and the
mode is not Gating, the processed state holds exactly that token and its
user is registered. -/
theorem controller_outstanding_token_registered (G S M : Type) (I : Ctrl.GameI G S M)
    (maker : List User → G) :
    (∀ (trace : List (Ctrl.Event M × Ctrl.Env × Nat)) (st2 : Ctrl.CState G),
      Ctrl.runEvents I maker (Ctrl.initState maker) trace = Ctrl.StepRes.ok st2 →
      st2.p_move_rx = true →
      ∃ t, st2.turn_token = some t ∧ Ctrl.registered st2.players t.user.name ∧
        ∀ t2, st2.turn_token = some t2 → t2 = t) ∧
    (∀ (st : Ctrl.CState G) (name : String) (env : Ctrl.Env) (fuel : Nat)
        (g2 : G) (pt : PlayerTurn S) (st2 : Ctrl.CState G),
      st.p_move_rx = false → st.info.game_mode ≠ Ctrl.GameMode.Gating →
      (∀ i, env.yourTurnSendOk i = true) →
      I.try_start_game (I.player_connected st.game
        (Ctrl.playerInfoToUser (st.players.addNewPlayer name).2)) = (g2, some pt) →
      Ctrl.controllerStep I maker env fuel st (Ctrl.Event.ImConnected name) =
        Ctrl.StepRes.ok st2 →
      st2.p_move_rx = true ∧ st2.turn_token = some pt.token ∧
        Ctrl.registered st2.players pt.token.user.name) := by
  constructor
  · intro trace st2 hrun hrx
    have hInv0 : Ctrl.Inv (Ctrl.initState maker) := fun hc => Bool.noConfusion hc
    have hInv2 := Ctrl.runEvents_Inv trace (Ctrl.initState maker) st2 hInv0 hrun
    obtain ⟨t, ht, hreg⟩ := hInv2 hrx
    refine ⟨t, ht, hreg, ?_⟩
    intro t2 ht2
    rw [ht] at ht2
    injection ht2 with ht2
    exact ht2.symm
  · intro st name env fuel g2 pt st2 hrx hmode hsend hts h
    simp only [Ctrl.controllerStep, Ctrl.stepBody, hrx, Bool.false_eq_true, if_false] at h
    simp only [hts] at h
    cases fuel with
    | zero =>
      simp only [Ctrl.dispatchTurn, Ctrl.yourTurn, Ctrl.finishStep] at h
      exact Ctrl.StepRes.noConfusion h
    | succ n =>
      rcases hget : (st.players.addNewPlayer name).1.get pt.token.user.name with _ | p
      · simp only [Ctrl.dispatchTurn, Ctrl.yourTurn, if_neg hmode, hget, Ctrl.finishStep] at h
        exact Ctrl.StepRes.noConfusion h
      · simp only [Ctrl.dispatchTurn, Ctrl.yourTurn, if_neg hmode, hget, hsend 0, if_true,
          Ctrl.finishStep] at h
        injection h with h
        subst h
        exact ⟨rfl, rfl, Ctrl.get_some_registered hget⟩

/-- A rotation-list engine for concrete runs: connecting appends a user and
`try_start_game` offers the head of the rotation a turn. -/
def rotEngine : Ctrl.GameI (List User) Unit Unit :=
  ⟨fun g _ _ => (g, PlayerMoveResult.Draw),
   fun g _ => (g, none),
   fun g => (g, g.head?.map (fun u => ⟨⟨u⟩, ()⟩)),
   fun g u => g ++ [u],
   fun g n => g.filter (fun u => u.name ≠ n)⟩

/-- Witness for C5: after one Connect that starts a game, the reachable
state holds exactly one token and it names the registered player. -/
theorem controller_outstanding_token_registered_witness :
    ∃ st2, Ctrl.runEvents rotEngine (fun us => us) (Ctrl.initState (fun us => us))
        [(Ctrl.Event.ImConnected "a", envAll, 2)] = Ctrl.StepRes.ok st2 ∧
      ∃ t, st2.turn_token = some t ∧ Ctrl.registered st2.players t.user.name ∧
        ∀ t2, st2.turn_token = some t2 → t2 = t := by
  obtain ⟨t, h1, h2, h3⟩ := (controller_outstanding_token_registered (List User) Unit Unit
      rotEngine (fun us => us)).1 [(Ctrl.Event.ImConnected "a", envAll, 2)] _ rfl rfl
  exact ⟨_, rfl, t, h1, h2, h3⟩
